import Mathlib

set_option maxRecDepth 8000
set_option maxHeartbeats 1000000

/-
  Verification development for the chihlee-cal-worker extraction core
  (vendor crate chihlee-cal-to-csv).  Strings are modelled as lists of
  Unicode characters; Rust byte indices appear in the sources only at
  character boundaries, so character indices are a faithful model.
  Floating point scores (f32 confidences, f64 numeric parsing) are
  modelled over the exact rationals.
-/

abbrev Str := List Char

/-- Model of Rust char::is_whitespace: the Unicode White_Space property. -/
def rust_is_whitespace (c : Char) : Bool :=
  let n := c.toNat
  decide ((9 ≤ n ∧ n ≤ 13) ∨ n = 32 ∨ n = 0x85 ∨ n = 0xA0 ∨ n = 0x1680 ∨
    (0x2000 ≤ n ∧ n ≤ 0x200A) ∨ n = 0x2028 ∨ n = 0x2029 ∨ n = 0x202F ∨
    n = 0x205F ∨ n = 0x3000)

/-- Model of Rust char::is_ascii_whitespace. -/
def is_ascii_whitespace (c : Char) : Bool :=
  let n := c.toNat
  decide (n = 32 ∨ n = 9 ∨ n = 10 ∨ n = 12 ∨ n = 13)

/-- Model of str::trim_start. -/
def trim_start (s : Str) : Str := s.dropWhile rust_is_whitespace

/-- Model of str::trim_end. -/
def trim_end (s : Str) : Str := (s.reverse.dropWhile rust_is_whitespace).reverse

/-- Model of Rust str::trim (trims Unicode whitespace on both sides). -/
def rust_trim (s : Str) : Str := trim_end (trim_start s)

/-- Substring test: model of Rust str::contains with a string pattern. -/
def isSubstr (pat : Str) : Str → Bool
  | [] => pat.isEmpty
  | c :: t => pat.isPrefixOf (c :: t) || isSubstr pat t

/-- First index at which the pattern occurs: model of str::find. -/
def findSubIdx (pat : Str) : Str → Option Nat
  | [] => if pat.isEmpty then some 0 else none
  | c :: t => if pat.isPrefixOf (c :: t) then some 0 else (findSubIdx pat t).map (· + 1)

/-- Worker for split_whitespace; the second argument is the reversed current token. -/
def split_ws_go : Str → Str → List Str
  | [], cur => if cur = [] then [] else [cur.reverse]
  | c :: rest, cur =>
      if rust_is_whitespace c then
        if cur = [] then split_ws_go rest [] else cur.reverse :: split_ws_go rest []
      else split_ws_go rest (c :: cur)

/-- Model of Rust str::split_whitespace. -/
def split_whitespace (s : Str) : List Str := split_ws_go s []

/-- Split on a separator character, keeping empty segments. -/
def splitOnChar (c : Char) : Str → List Str
  | [] => [[]]
  | x :: t =>
      match splitOnChar c t with
      | [] => [[x]]
      | h :: r => if x = c then [] :: h :: r else (x :: h) :: r

/-- Model of Rust str::lines: split on a newline, drop a final empty segment,
strip one trailing carriage return from each line. -/
def rust_lines (text : Str) : List Str :=
  let parts := splitOnChar '\n' text
  let parts := if parts.getLast? = some ([] : Str) then parts.dropLast else parts
  parts.map (fun l => if l.getLast? = some '\r' then l.dropLast else l)

/-- Decimal digit character for a digit value below ten. -/
def digitChar (n : Nat) : Char :=
  match n with
  | 0 => '0' | 1 => '1' | 2 => '2' | 3 => '3' | 4 => '4'
  | 5 => '5' | 6 => '6' | 7 => '7' | 8 => '8' | _ => '9'

/-- Fueled worker for decimal rendering of a natural number. -/
def natToStrGo : Nat → Nat → Str
  | 0, _ => []
  | fuel + 1, n =>
      if n < 10 then [digitChar n]
      else natToStrGo fuel (n / 10) ++ [digitChar (n % 10)]

/-- Model of Rust integer to_string (decimal rendering, no sign, no leading zeros). -/
def natToStr (n : Nat) : Str := natToStrGo (n + 1) n

/-- Decimal value of a digit string; used to invert natToStr. -/
def strVal (s : Str) : Nat := s.foldl (fun a c => 10 * a + (c.toNat - 48)) 0

/-- No two adjacent spaces occur in the list. -/
def noDbl : Str → Bool
  | [] => true
  | [_] => true
  | a :: b :: t => !(decide (a = ' ') && decide (b = ' ')) && noDbl (b :: t)

/-- Model of Vec::resize with an empty-string default: truncate to the width or
pad with empty strings up to it. -/
def vecResize (row : List Str) (width : Nat) : List Str :=
  row.take width ++ List.replicate (width - row.length) ([] : Str)

/- ===== table_parse.rs ===== -/

/-- Accumulator of the split_line_into_cells character loop. -/
structure SplitAcc where
  cells : List Str
  current : Str
  run : Nat
deriving DecidableEq

/-- One step of the split_line_into_cells character loop. -/
def split_step (st : SplitAcc) (ch : Char) : SplitAcc :=
  if ch = '\t' then
    if rust_trim st.current ≠ [] then ⟨st.cells ++ [rust_trim st.current], [], 0⟩
    else ⟨st.cells, st.current, 0⟩
  else if rust_is_whitespace ch then
    let run := st.run + 1
    if 2 ≤ run then
      if rust_trim st.current ≠ [] then ⟨st.cells ++ [rust_trim st.current], [], run⟩
      else ⟨st.cells, st.current, run⟩
    else ⟨st.cells, st.current ++ [' '], run⟩
  else ⟨st.cells, st.current ++ [ch], 0⟩

/-- Model of table_parse.rs split_line_into_cells. -/
def split_line_into_cells (line : Str) : List Str :=
  let trimmed := rust_trim line
  if trimmed = [] then []
  else
    let st := trimmed.foldl split_step ⟨[], [], 0⟩
    if rust_trim st.current ≠ [] then st.cells ++ [rust_trim st.current] else st.cells

/-- Model of table_parse.rs normalize_rows. -/
def normalize_rows (rows : List (List Str)) (width : Nat) : List (List Str) :=
  rows.map (fun row => vecResize row width)

/- ===== model.rs, options.rs, warning.rs, error.rs ===== -/

inductive TableOrigin
  | auto
  | manualArea
deriving DecidableEq

structure DetectedTable where
  page : Nat
  rows : List (List Str)
  confidence : ℚ
  origin : TableOrigin
deriving DecidableEq

structure PreparedTable where
  page : Nat
  table_id : Nat
  rows : List (List Str)
deriving DecidableEq

structure MergedOutput where
  headers : List Str
  rows : List (List Str)
  table_count : Nat
  row_count : Nat
deriving DecidableEq

inductive HeaderMode
  | autoDetect
  | hasHeader
  | noHeader
deriving DecidableEq

inductive QualityMode
  | bestEffort
  | strict
  | skipAmbiguous
deriving DecidableEq

inductive WarningCode
  | lowConfidence
  | headerInferenceLowConfidence
  | areaFallbackApproximate
  | noTablesDetected
deriving DecidableEq

structure ExtractWarning where
  code : WarningCode
  message : Str
  page : Option Nat := none
  table_id : Option Nat := none
  confidence : Option ℚ := none
deriving DecidableEq

inductive ExtractError
  | invalidOption : Str → ExtractError
  | ambiguousTable : Nat → ℚ → ExtractError
deriving DecidableEq

/-- The option fields of ExtractOptions consumed by the embedded stages. -/
structure ExtractOptions where
  no_page : Bool
  no_table : Bool
  custom_col_names : Option (Str × Str)
  quality_mode : QualityMode
  header_mode : HeaderMode
  clean_calendar : Bool
  min_cols : Nat
deriving DecidableEq

/- ===== header.rs ===== -/

/-- Exponent part of the Rust f64 grammar: empty, or e or E with an optional
sign and at least one digit. -/
def expOk : Str → Bool
  | [] => true
  | c :: rest =>
      (decide (c = 'e') || decide (c = 'E')) &&
      (let rest := match rest with
        | s :: r => if s = '+' ∨ s = '-' then r else s :: r
        | [] => []
       !rest.isEmpty && rest.all Char.isDigit)

/-- Mantissa-and-exponent part of the Rust f64 grammar. -/
def parseF64Number (s : Str) : Bool :=
  let intPart := s.takeWhile Char.isDigit
  let rest := s.dropWhile Char.isDigit
  if intPart = [] then
    match rest with
    | '.' :: r => !(r.takeWhile Char.isDigit).isEmpty && expOk (r.dropWhile Char.isDigit)
    | _ => false
  else
    match rest with
    | '.' :: r => expOk (r.dropWhile Char.isDigit)
    | _ => expOk rest

/-- Lower-case an ASCII letter. -/
def asciiToLower (c : Char) : Char :=
  if 'A' ≤ c ∧ c ≤ 'Z' then Char.ofNat (c.toNat + 32) else c

/-- Special float words accepted by the Rust f64 parser, case-insensitively. -/
def parseF64Special (s : Str) : Bool :=
  let l := s.map asciiToLower
  decide (l = ("inf".toList)) || decide (l = ("infinity".toList)) || decide (l = ("nan".toList))

/-- Model of header.rs is_numeric: trim, remove commas, and test whether the
rest parses as an f64 (sign, then a special word or a decimal number). -/
def is_numeric (value : Str) : Bool :=
  let trimmed := (rust_trim value).filter (fun c => c ≠ ',')
  match trimmed with
  | [] => false
  | c :: rest =>
      let body := if c = '+' ∨ c = '-' then rest else c :: rest
      parseF64Special body || parseF64Number body

/-- Model of header.rs non_numeric_ratio over exact rationals. -/
def non_numeric_frac (cells : List Str) : ℚ :=
  if cells = [] then 0
  else ((cells.filter (fun c => !is_numeric c)).length : ℚ) / (cells.length : ℚ)

/-- Model of Rust f32::clamp for an ordered field. -/
def qclamp (x lo hi : ℚ) : ℚ := max lo (min x hi)

/-- Model of header.rs infer_has_header. -/
def infer_has_header (rows : List (List Str)) : Bool × ℚ :=
  match rows with
  | [] => (false, 0)
  | first :: rest =>
      let f := non_numeric_frac first
      let s := match rest.head? with
        | some r => non_numeric_frac r
        | none => 0
      let confidence := qclamp (f * (6/10) + (1 - s) * (4/10)) 0 1
      (decide (6/10 ≤ f) && decide (s ≤ 7/10), confidence)

/-- Model of header.rs apply_header_mode; the warning list models the pushes
onto the shared warning accumulator. -/
def apply_header_mode (table : DetectedTable) (mode : HeaderMode) (table_id : Nat) :
    List (List Str) × List ExtractWarning :=
  if table.rows = [] then ([], [])
  else
    match mode with
    | .hasHeader => (table.rows.drop 1, [])
    | .noHeader => (table.rows, [])
    | .autoDetect =>
        let r := infer_has_header table.rows
        if r.1 && decide (55/100 ≤ r.2) then (table.rows.drop 1, [])
        else
          (table.rows,
           if r.2 < 55/100 then
             [{ code := .headerInferenceLowConfidence,
                message := ("header inference confidence is low; keeping the first row as data".toList),
                page := some table.page, table_id := some table_id, confidence := some r.2 }]
           else [])

/- ===== merge.rs ===== -/

/-- The global width of merge.rs: maximum row length over all prepared tables. -/
def global_width (tables : List PreparedTable) : Nat :=
  (tables.flatMap (fun t => t.rows.map List.length)).foldr max 0

/-- Model of merge.rs merge_tables. -/
def merge_tables (tables : List PreparedTable) : MergedOutput :=
  let width := global_width tables
  let headers := ("page".toList) :: ("table_id".toList) ::
    (List.range' 1 width).map (fun i => ("col_".toList) ++ natToStr i)
  let rows := tables.flatMap (fun t =>
    (normalize_rows t.rows width).map (fun r => natToStr t.page :: natToStr t.table_id :: r))
  { headers := headers, rows := rows, row_count := rows.length, table_count := tables.length }

/- ===== lib.rs ===== -/

/-- The retained column indices of apply_output_column_filters, built like the
enumerate-plus-filter_map in the source; the counter starts at zero. -/
def keep_indices_go (no_page no_table : Bool) : Nat → List Str → List Nat
  | _, [] => []
  | i, h :: rest =>
      if no_page ∧ h = ("page".toList) then keep_indices_go no_page no_table (i + 1) rest
      else if no_table ∧ h = ("table_id".toList) then keep_indices_go no_page no_table (i + 1) rest
      else i :: keep_indices_go no_page no_table (i + 1) rest

/-- Model of lib.rs apply_output_column_filters. -/
def apply_output_column_filters (merged : MergedOutput) (options : ExtractOptions) :
    MergedOutput :=
  if !options.no_page && !options.no_table then merged
  else
    let keep := keep_indices_go options.no_page options.no_table 0 merged.headers
    { headers := keep.filterMap (fun i => merged.headers.get? i),
      rows := merged.rows.map (fun row => keep.filterMap (fun i => row.get? i)),
      row_count := merged.row_count,
      table_count := merged.table_count }

/-- Model of lib.rs apply_custom_column_names. -/
def apply_custom_column_names (merged : MergedOutput) (options : ExtractOptions) :
    MergedOutput :=
  match options.custom_col_names with
  | none => merged
  | some (c1, c2) =>
      { merged with headers := merged.headers.map (fun h =>
          if h = ("col_1".toList) then c1 else if h = ("col_2".toList) then c2 else h) }

/-- The low-confidence threshold of table_detect.rs. -/
def LOW_CONFIDENCE_THRESHOLD : ℚ := 60/100

/-- Model of lib.rs apply_quality_mode; warnings model the pushes onto the
shared accumulator, in order. -/
def apply_quality_mode : List DetectedTable → QualityMode →
    Except ExtractError (List DetectedTable × List ExtractWarning)
  | [], _ => .ok ([], [])
  | t :: rest, mode =>
      if LOW_CONFIDENCE_THRESHOLD ≤ t.confidence then
        match apply_quality_mode rest mode with
        | .ok (ts, ws) => .ok (t :: ts, ws)
        | .error e => .error e
      else
        match mode with
        | .bestEffort =>
            match apply_quality_mode rest mode with
            | .ok (ts, ws) =>
                .ok (t :: ts,
                  { code := .lowConfidence,
                    message := ("table confidence is low; exported in best-effort mode".toList),
                    page := some t.page, confidence := some t.confidence } :: ws)
            | .error e => .error e
        | .strict => .error (.ambiguousTable t.page t.confidence)
        | .skipAmbiguous =>
            match apply_quality_mode rest mode with
            | .ok (ts, ws) =>
                .ok (ts,
                  { code := .lowConfidence,
                    message := ("skipping low-confidence table".toList),
                    page := some t.page, confidence := some t.confidence } :: ws)
            | .error e => .error e

/-- The prepared-table loop of lib.rs extract_from_pages: number tables in
order starting at the given index, apply the header mode, skip tables whose
rows come back empty. -/
def prepare_tables_go (mode : HeaderMode) : Nat → List DetectedTable →
    List PreparedTable × List ExtractWarning
  | _, [] => ([], [])
  | idx, t :: rest =>
      let table_id := idx + 1
      let r := apply_header_mode t mode table_id
      let rec_r := prepare_tables_go mode (idx + 1) rest
      if r.1 = [] then (rec_r.1, r.2 ++ rec_r.2)
      else (⟨t.page, table_id, r.1⟩ :: rec_r.1, r.2 ++ rec_r.2)

/-- The prepared tables of lib.rs extract_from_pages (table ids start at one). -/
def prepare_tables (tables : List DetectedTable) (mode : HeaderMode) :
    List PreparedTable × List ExtractWarning :=
  prepare_tables_go mode 0 tables

/- ===== clean_calendar.rs ===== -/

/-- Model of clean_calendar.rs is_range_sep. -/
def is_range_sep (c : Char) : Bool :=
  decide (c = '~' ∨ c = '～' ∨ c = '-' ∨ c = '－' ∨ c = '—')

/-- Model of clean_calendar.rs normalize_date_token: drop whitespace, replace
the wide or dash range separators by a tilde. -/
def normalize_date_token (s : Str) : Str :=
  (s.filter (fun c => !rust_is_whitespace c)).map (fun c =>
    if c = '～' ∨ c = '-' ∨ c = '－' ∨ c = '—' then '~' else c)

/-- Model of clean_calendar.rs parse_month_day_at, acting on the suffix that
starts at the scan position; returns the number of characters consumed. -/
def parse_month_day_at (s : Str) : Option Nat :=
  let mAll := (s.takeWhile Char.isDigit).length
  let mdig := min mAll 2
  if mdig = 0 then none
  else
    match s.drop mdig with
    | '/' :: rest =>
        let month := strVal (s.take mdig)
        if 1 ≤ month ∧ month ≤ 12 then
          let dAll := (rest.takeWhile Char.isDigit).length
          let ddig := min dAll 2
          if ddig = 0 then none
          else
            let day := strVal (rest.take ddig)
            if 1 ≤ day ∧ day ≤ 31 then some (mdig + 1 + ddig) else none
        else none
    | _ => none

/-- Model of Rust char::is_alphanumeric for the character repertoire of this
domain: ASCII letters and digits plus the CJK unified ideographs; the source
combines the full Unicode alphanumeric test with an explicit CJK range test,
and every character that reaches the test in this corpus falls in one of
these classes. -/
def rust_is_alphanumeric (c : Char) : Bool :=
  c.isAlpha || c.isDigit || decide (0x4E00 ≤ c.toNat ∧ c.toNat ≤ 0x9FFF)

/-- The CJK unified ideograph test of find_date_tokens. -/
def is_cjk_ideograph (c : Char) : Bool :=
  decide (0x4E00 ≤ c.toNat ∧ c.toNat ≤ 0x9FFF)

/-- Length of the leading whitespace run. -/
def ws_len (s : Str) : Nat := (s.takeWhile rust_is_whitespace).length

/-- The token-extension step of find_date_tokens: after a parsed month-day at
the head of the suffix, include an optional trailing ideograph 起, then try a
range separator (with tolerated whitespace) followed by a second month-day
with its own optional 起.  Returns the token length. -/
def extend_token (s : Str) (k : Nat) : Nat :=
  let k1 := if (s.drop k).head? = some '起' then k + 1 else k
  let c0 := k1 + ws_len (s.drop k1)
  match (s.drop c0).head? with
  | some sep =>
      if is_range_sep sep then
        let c1 := c0 + 1
        let c2 := c1 + ws_len (s.drop c1)
        match parse_month_day_at (s.drop c2) with
        | some k2 =>
            let e := c2 + k2
            if (s.drop e).head? = some '起' then e + 1 else e
        | none => k1
      else k1
  | none => k1

/-- The reject test on the character that follows a candidate token: reject
when it is neither whitespace nor an accepted punctuation nor a range
separator. -/
def trailing_bad (s : Str) : Bool :=
  match s.head? with
  | none => false
  | some c =>
      !rust_is_whitespace c &&
      !(decide (c = ')' ∨ c = '）' ∨ c = '(' ∨ c = '（' ∨ c = '，' ∨ c = ',' ∨
        c = '；' ∨ c = ';' ∨ c = '。' ∨ c = ':')) &&
      !is_range_sep c

/-- The previous-character reject test of find_date_tokens. -/
def prev_blocks : Option Char → Bool
  | none => false
  | some p => rust_is_alphanumeric p || is_cjk_ideograph p

/-- Fueled scan loop of find_date_tokens; idx is the absolute position of the
suffix rest within the scanned line, prev the character just before it. -/
def find_go : Nat → Nat → Option Char → Str → List (Nat × Nat × Str)
  | 0, _, _, _ => []
  | fuel + 1, idx, prev, rest =>
      match rest with
      | [] => []
      | c :: rtail =>
          if !c.isDigit then find_go fuel (idx + 1) (some c) rtail
          else
            match parse_month_day_at rest with
            | none => find_go fuel (idx + 1) (some c) rtail
            | some k =>
                if prev_blocks prev then find_go fuel (idx + 1) (some c) rtail
                else
                  let e := extend_token rest k
                  if trailing_bad (rest.drop e) then find_go fuel (idx + 1) (some c) rtail
                  else
                    (idx, idx + e, normalize_date_token (rest.take e)) ::
                      find_go fuel (idx + e) ((rest.take e).getLast?) (rest.drop e)

/-- Model of clean_calendar.rs find_date_tokens. -/
def find_date_tokens (line : Str) : List (Nat × Nat × Str) :=
  find_go (line.length + 1) 0 none line

/-- Model of clean_calendar.rs is_noise_token. -/
def is_noise_token (value : Str) : Bool :=
  let trimmed := rust_trim value
  if trimmed = [] then true
  else if trimmed.all (fun ch =>
      ch.isDigit || is_ascii_whitespace ch ||
      decide (ch = '.' ∨ ch = ',' ∨ ch = '(' ∨ ch = ')')) then true
  else if trimmed.all (fun ch => ("日一二三四五六".toList).contains ch) then true
  else false

/-- Model of clean_calendar.rs looks_calendar_note. -/
def looks_calendar_note (line : Str) : Bool :=
  ("※註".toList).isPrefixOf line || ("第".toList).isPrefixOf line ||
  isSubstr ("月    曆".toList) line || isSubstr ("致理科技大學".toList) line

/-- The trailing-noise token test inside clean_event_text. -/
def is_trailing_noise_token (token : Str) : Bool :=
  let trimmed := rust_trim token
  if trimmed = [] then true
  else if trimmed.all (fun ch =>
      ch.isDigit || decide (ch = '.' ∨ ch = ',' ∨ ch = ':' ∨ ch = '：')) then true
  else if trimmed.all (fun ch => ("日一二三四五六".toList).contains ch) then true
  else false

/-- The truncation test of clean_event_text on a single token. -/
def cut_token (token : Str) : Bool :=
  isSubstr ("週別".toList) token || isSubstr ("日期及行事計畫".toList) token ||
  isSubstr ("民國".toList) token || isSubstr ("致理科技大學".toList) token ||
  isSubstr ("※註".toList) token ||
  decide (token = ("月".toList)) || decide (token = ("曆".toList)) ||
  ("月".toList).isSuffixOf token ||
  decide (token = ("1.".toList)) || decide (token = ("2.".toList)) ||
  decide (token = ("3.".toList))

/-- Strip leading and trailing occurrences of one character: model of the
Rust str::trim_matches with a char pattern. -/
def trim_matches_char (c : Char) (s : Str) : Str :=
  ((s.dropWhile (fun x => x = c)).reverse.dropWhile (fun x => x = c)).reverse

/-- The value clean_event_text builds just before the conditional prepend of
an opening parenthesis (the local named out in the source). -/
def clean_event_pre (value : Str) : Str :=
  let tokens := ((split_whitespace value).map rust_trim).filter (fun t => t ≠ [])
  let tokens := match tokens.findIdx? cut_token with
    | some cut => tokens.take cut
    | none => tokens
  let tokens := match (List.range' 1 (tokens.length - 1)).find?
      (fun start => (tokens.drop start).all is_trailing_noise_token) with
    | some start => tokens.take start
    | none => tokens
  let tokens := (tokens.reverse.dropWhile is_trailing_noise_token).reverse
  trim_matches_char '，' (rust_trim (List.intercalate ([' '] : Str) tokens))

/-- Model of clean_calendar.rs clean_event_text. -/
def clean_event_text (value : Str) : Str :=
  let out := clean_event_pre value
  if ("上課後".toList).isPrefixOf out ∧ out.contains ')' ∧ out.head? ≠ some '(' then
    '(' :: out
  else out

/-- Model of clean_calendar.rs split_mixed_event. -/
def split_mixed_event (event : Str) : List Str :=
  let marker := (" 四技甄選入學實作面試".toList)
  match findSubIdx marker event with
  | some pos =>
      [rust_trim (event.take pos), rust_trim (event.drop (pos + 1))].filter (fun p => p ≠ [])
  | none => [event]

structure CalendarEntry where
  date : Str
  event : Str
deriving DecidableEq

/-- Model of the push_current closure of clean_calendar_from_text. -/
def push_current (entries : List CalendarEntry) (current : Option CalendarEntry) :
    List CalendarEntry :=
  match current with
  | none => entries
  | some entry =>
      let event := clean_event_text entry.event
      if event = [] then entries else entries ++ [⟨entry.date, event⟩]

/-- The per-token loop of clean_calendar_from_text: push the open entry and
start a new one seeded with the text between this token and the next. -/
def token_loop (line : Str) : List (Nat × Nat × Str) →
    List CalendarEntry × Option CalendarEntry → List CalendarEntry × Option CalendarEntry
  | [], st => st
  | (_, e, date) :: rest, st =>
      let entries := push_current st.1 st.2
      let next_start := match rest.head? with
        | some (s2, _, _) => s2
        | none => line.length
      let segment := rust_trim ((line.take next_start).drop e)
      token_loop line rest (entries, some ⟨date, segment⟩)

/-- Append a continuation to the open entry with a single space separator. -/
def append_event (cur : Option CalendarEntry) (text : Str) : Option CalendarEntry :=
  match cur with
  | none => none
  | some entry =>
      some ⟨entry.date, if entry.event = [] then text else entry.event ++ ' ' :: text⟩

/-- The per-line step of clean_calendar_from_text. -/
def process_line (st : List CalendarEntry × Option CalendarEntry) (raw_line : Str) :
    List CalendarEntry × Option CalendarEntry :=
  let line := rust_trim raw_line
  if line = [] then st
  else
    let tokens := find_date_tokens line
    if tokens = [] then
      if looks_calendar_note line || is_noise_token line then st
      else (st.1, append_event st.2 line)
    else
      let st1 := match tokens.head? with
        | some (first_start, _, _) =>
            let pfx := rust_trim (line.take first_start)
            if pfx ≠ [] ∧ !is_noise_token pfx ∧ !looks_calendar_note pfx then
              (st.1, append_event st.2 pfx)
            else st
        | none => st
      token_loop line tokens st1

/-- The dedup-and-split loop at the end of clean_calendar_from_text; the state
carries the seen keys and the emitted rows. -/
def dedup_go (entries : List CalendarEntry) (st : List Str × List (List Str)) :
    List Str × List (List Str) :=
  match entries with
  | [] => st
  | entry :: rest =>
      let st := (split_mixed_event entry.event).foldl
        (fun (acc : List Str × List (List Str)) event =>
          let key := entry.date ++ '|' :: event
          if key ∈ acc.1 then acc
          else (key :: acc.1, acc.2 ++ [[("1".toList), ("1".toList), entry.date, event]]))
        st
      dedup_go rest st

/-- Model of clean_calendar.rs clean_calendar_from_text. -/
def clean_calendar_from_text (text : Str) : MergedOutput :=
  let st := (rust_lines text).foldl process_line ([], none)
  let entries := push_current st.1 st.2
  let rows := (dedup_go entries ([], [])).2
  { headers := [("page".toList), ("table_id".toList), ("col_1".toList), ("col_2".toList)],
    rows := rows, row_count := rows.length,
    table_count := if rows = [] then 0 else 1 }

/-- The event-cell search of clean_calendar_output: skip empty and noise
cells, stop without an event at a date-bearing cell, otherwise take the cell. -/
def find_event_cell : List Str → Option Str
  | [] => none
  | cell :: rest =>
      let text := rust_trim cell
      if text = [] ∨ is_noise_token text then find_event_cell rest
      else if find_date_tokens text ≠ [] then none
      else some text

/-- The per-cell loop of clean_calendar_output over the payload of one row;
the state carries the seen keys and the emitted rows. -/
def cco_cells (page tid : Str) : List Str → List Str × List (List Str) →
    List Str × List (List Str)
  | [], st => st
  | cell :: rest, st =>
      if find_date_tokens cell = [] then cco_cells page tid rest st
      else
        let date := normalize_date_token (rust_trim cell)
        match find_event_cell rest with
        | none => cco_cells page tid rest st
        | some event =>
            let key := page ++ '|' :: tid ++ '|' :: date ++ '|' :: event
            if key ∈ st.1 then cco_cells page tid rest st
            else cco_cells page tid rest (key :: st.1, st.2 ++ [[page, tid, date, event]])

/-- Model of clean_calendar.rs clean_calendar_output. -/
def clean_calendar_output (merged : MergedOutput) : MergedOutput :=
  let rows := (merged.rows.foldl
    (fun (st : List Str × List (List Str)) row =>
      if row.length < 4 then st
      else cco_cells (row.getD 0 []) (row.getD 1 []) (row.drop 2) st)
    ([], [])).2
  { headers := [("page".toList), ("table_id".toList), ("col_1".toList), ("col_2".toList)],
    rows := rows, row_count := rows.length,
    table_count := (rows.map (fun r => r.getD 1 [])).dedup.length }

/- ===== proof-support definitions ===== -/

/-- The header-retention test realized by keep_indices_go. -/
def hdrKeep (np nt : Bool) (h : Str) : Bool :=
  if np ∧ h = ("page".toList) then false
  else if nt ∧ h = ("table_id".toList) then false
  else true

/-- The final output steps of extract_from_pages: column projection followed
by column renaming. -/
def project_and_rename (m : MergedOutput) (opts : ExtractOptions) : MergedOutput :=
  apply_custom_column_names (apply_output_column_filters m opts) opts

/-- The guarantees of split_line_into_cells on an emitted cell: nonempty,
fixed by trimming, free of tabs, whitespace only as single literal spaces,
and no two adjacent spaces (no whitespace run of length two or more). -/
def cellOK (c : Str) : Prop :=
  c ≠ [] ∧ rust_trim c = c ∧ '\t' ∉ c ∧
  (∀ ch ∈ c, rust_is_whitespace ch = true → ch = ' ') ∧ noDbl c = true

/-- Loop invariant of the split_line_into_cells character fold. -/
def splitInv (st : SplitAcc) : Prop :=
  (∀ c ∈ st.cells, cellOK c) ∧
  '\t' ∉ st.current ∧
  (∀ ch ∈ st.current, rust_is_whitespace ch = true → ch = ' ') ∧
  noDbl (trim_start st.current) = true ∧
  (st.run = 0 → (trim_start st.current).getLast? ≠ some ' ')

/- ===== specification-side date patterns ===== -/

/-- Consume one or two leading decimal digits, greedily. -/
def chompDigits12 : Str → Option Str
  | [] => none
  | c1 :: rest =>
      if c1.isDigit then
        match rest with
        | c2 :: r2 => if c2.isDigit then some r2 else some rest
        | [] => some []
      else none

/-- Consume a month-day group of the date pattern. -/
def chompMD (s : Str) : Option Str :=
  match chompDigits12 s with
  | some r =>
      match r with
      | '/' :: r2 => chompDigits12 r2
      | _ => none
  | none => none

/-- Consume one optional occurrence of a character. -/
def chompOpt (c : Char) (s : Str) : Str :=
  match s with
  | c1 :: r => if c1 = c then r else s
  | [] => []

/-- The date pattern of the specification, digits slash digits with an
optional tilde range and one optional trailing ideograph 起. -/
def matchesDatePattern (s : Str) : Bool :=
  match chompMD s with
  | none => false
  | some r =>
      let r := match r with
        | '~' :: rr =>
            match chompMD rr with
            | some r2 => r2
            | none => '~' :: rr
        | _ => r
      decide (chompOpt '起' r = ([] : Str))

/-- The amended date pattern: the ideograph 起 may follow either month-day
group of a range. -/
def matchesDatePatternAmended (s : Str) : Bool :=
  match chompMD s with
  | none => false
  | some r =>
      let r := chompOpt '起' r
      match r with
      | '~' :: rr =>
          match chompMD rr with
          | some r2 => decide (chompOpt '起' r2 = ([] : Str))
          | none => false
      | _ => decide (r = ([] : Str))

/- ===== lemmas on the column projection ===== -/

theorem keep_indices_go_shift (np nt : Bool) (hs : List Str) :
    ∀ i, keep_indices_go np nt i hs = (keep_indices_go np nt 0 hs).map (· + i) := by
  induction hs with
  | nil => intro i; simp [keep_indices_go]
  | cons h t ih =>
      intro i
      by_cases h1 : np ∧ h = ("page".toList)
      · simp only [keep_indices_go, if_pos h1, ih (i + 1), ih 1, List.map_map]
        apply List.map_congr_left
        intro j _
        simp [Function.comp]
        omega
      · by_cases h2 : nt ∧ h = ("table_id".toList)
        · simp only [keep_indices_go, if_neg h1, if_pos h2, ih (i + 1), ih 1, List.map_map]
          apply List.map_congr_left
          intro j _
          simp [Function.comp]
          omega
        · simp only [keep_indices_go, if_neg h1, if_neg h2, ih (i + 1), ih 1, List.map_map,
            List.map_cons]
          refine congrArg₂ _ (by omega) ?_
          apply List.map_congr_left
          intro j _
          simp [Function.comp]
          omega

theorem keep_indices_filterMap (np nt : Bool) (hs : List Str) :
    (keep_indices_go np nt 0 hs).filterMap (fun i => hs.get? i) =
      hs.filter (hdrKeep np nt) := by
  induction hs with
  | nil => simp [keep_indices_go]
  | cons h t ih =>
      have shift : ∀ (l : List Str),
          ((keep_indices_go np nt 0 t).map (· + 1)).filterMap (fun i => (h :: l).get? i) =
            (keep_indices_go np nt 0 t).filterMap (fun i => l.get? i) := by
        intro l
        rw [List.filterMap_map]
        rfl
      by_cases h1 : np ∧ h = ("page".toList)
      · simp only [keep_indices_go, if_pos h1, keep_indices_go_shift np nt t 1, shift, ih,
          List.filter_cons, hdrKeep]
        simp [h1]
      · by_cases h2 : nt ∧ h = ("table_id".toList)
        · simp only [keep_indices_go, if_neg h1, if_pos h2, keep_indices_go_shift np nt t 1,
            shift, ih, List.filter_cons, hdrKeep]
          simp [h1, h2]
        · simp only [keep_indices_go, if_neg h1, if_neg h2, keep_indices_go_shift np nt t 1,
            List.filterMap_cons, List.get?, shift, ih, List.filter_cons, hdrKeep]
          simp [h1, h2]

theorem keep_indices_filterMap_row (np nt : Bool) (hs : List Str) :
    ∀ row : List Str, row.length = hs.length →
      ((keep_indices_go np nt 0 hs).filterMap (fun i => row.get? i)).length =
        (hs.filter (hdrKeep np nt)).length := by
  induction hs with
  | nil => intro row _; simp [keep_indices_go]
  | cons h t ih =>
      intro row hlen
      match row, hlen with
      | r :: rt, hlen =>
        have hlen2 : rt.length = t.length := by simpa using hlen
        have shift : ((keep_indices_go np nt 0 t).map (· + 1)).filterMap
            (fun i => (r :: rt).get? i) =
            (keep_indices_go np nt 0 t).filterMap (fun i => rt.get? i) := by
          rw [List.filterMap_map]
          rfl
        by_cases h1 : np ∧ h = ("page".toList)
        · simp only [keep_indices_go, if_pos h1, keep_indices_go_shift np nt t 1, shift,
            ih rt hlen2, List.filter_cons, hdrKeep]
          simp [h1]
        · by_cases h2 : nt ∧ h = ("table_id".toList)
          · simp only [keep_indices_go, if_neg h1, if_pos h2, keep_indices_go_shift np nt t 1,
              shift, ih rt hlen2, List.filter_cons, hdrKeep]
            simp [h1, h2]
          · simp only [keep_indices_go, if_neg h1, if_neg h2, keep_indices_go_shift np nt t 1,
              List.filterMap_cons, List.get?, shift, List.filter_cons, hdrKeep]
            simp [h1, h2]
            simpa using ih rt hlen2

theorem filterMap_length_all_some {α β : Type} (f : α → Option β) :
    ∀ ks : List α, (∀ j ∈ ks, (f j).isSome) → (ks.filterMap f).length = ks.length := by
  intro ks
  induction ks with
  | nil => simp
  | cons a t ih =>
      intro hall
      have ha := hall a (by simp)
      rw [List.filterMap_cons]
      match hfa : f a with
      | none => rw [hfa] at ha; simp at ha
      | some b => simp [hfa, ih (fun j hj => hall j (by simp [hj]))]

theorem keep_indices_mem_lt (np nt : Bool) (hs : List Str) :
    ∀ i j, j ∈ keep_indices_go np nt i hs → j < i + hs.length := by
  induction hs with
  | nil => intro i j hj; simp [keep_indices_go] at hj
  | cons h t ih =>
      intro i j hj
      simp only [keep_indices_go] at hj
      by_cases h1 : np ∧ h = ("page".toList)
      · rw [if_pos h1] at hj
        have := ih (i + 1) j hj
        simp only [List.length_cons]
        omega
      · rw [if_neg h1] at hj
        by_cases h2 : nt ∧ h = ("table_id".toList)
        · rw [if_pos h2] at hj
          have := ih (i + 1) j hj
          simp only [List.length_cons]
          omega
        · rw [if_neg h2] at hj
          simp only [List.mem_cons] at hj
          rcases hj with rfl | hj
          · simp only [List.length_cons]; omega
          · have := ih (i + 1) j hj
            simp only [List.length_cons]
            omega

theorem keep_indices_length (np nt : Bool) (hs : List Str) :
    (keep_indices_go np nt 0 hs).length = (hs.filter (hdrKeep np nt)).length := by
  have hsome : ∀ j ∈ keep_indices_go np nt 0 hs, ((fun i => hs.get? i) j).isSome := by
    intro j hj
    have hlt := keep_indices_mem_lt np nt hs 0 j hj
    show (hs.get? j).isSome = true
    rw [List.get?_eq_getElem?]
    simp only [Option.isSome_iff_exists, List.getElem?_eq_some_iff]
    have hj2 : j < hs.length := by omega
    exact ⟨hs[j], hj2, rfl⟩
  calc (keep_indices_go np nt 0 hs).length
      = ((keep_indices_go np nt 0 hs).filterMap (fun i => hs.get? i)).length :=
        (filterMap_length_all_some _ _ hsome).symm
    _ = (hs.filter (hdrKeep np nt)).length := by rw [keep_indices_filterMap]

theorem keep_indices_all_kept (np nt : Bool) (hs : List Str)
    (hall : ∀ h ∈ hs, hdrKeep np nt h = true) :
    keep_indices_go np nt 0 hs = List.range hs.length := by
  induction hs with
  | nil => simp [keep_indices_go]
  | cons h t ih =>
      have hh := hall h (by simp)
      have h1 : ¬(np ∧ h = ("page".toList)) := by
        intro hc
        simp [hdrKeep, hc] at hh
      have h2 : ¬(nt ∧ h = ("table_id".toList)) := by
        intro hc
        simp only [hdrKeep] at hh
        rw [if_neg h1, if_pos hc] at hh
        exact Bool.false_ne_true hh
      have ih2 := ih (fun x hx => hall x (by simp [hx]))
      simp only [keep_indices_go, if_neg h1, if_neg h2, keep_indices_go_shift np nt t 1, ih2,
        List.length_cons, List.range_succ_eq_map]

theorem range_filterMap_get? {α : Type} :
    ∀ (n : Nat) (l : List α), (List.range n).filterMap (fun i => l.get? i) = l.take n := by
  intro n
  induction n with
  | zero => intro l; simp
  | succ n ih =>
      intro l
      rw [List.range_succ_eq_map, List.filterMap_cons]
      match l with
      | [] =>
          simp only [List.get?, List.take_nil]
          rw [List.filterMap_map]
          have : ∀ i : Nat, (([] : List α).get? (i + 1)) = none := by intro i; rfl
          simp [Function.comp, this]
      | a :: t =>
          simp only [List.get?, List.take_cons]
          rw [List.filterMap_map]
          have : ((fun i => (a :: t).get? i) ∘ (fun i => i + 1)) = fun i => t.get? i := by
            funext i
            rfl
          rw [this, ih t]
          rfl

/-- Claim C10: the column projection touches only headers and row fields; the
row count, the table count and the number of rows are preserved. -/
theorem C10_projection_frame (m : MergedOutput) (opts : ExtractOptions) :
    (apply_output_column_filters m opts).row_count = m.row_count ∧
    (apply_output_column_filters m opts).table_count = m.table_count ∧
    (apply_output_column_filters m opts).rows.length = m.rows.length := by
  unfold apply_output_column_filters
  by_cases hb : (!m.headers.isEmpty) = true
  all_goals
    by_cases hc : (!opts.no_page && !opts.no_table) = true
  all_goals simp [hc]

theorem proj_second_pass (m1 : MergedOutput) (opts : ExtractOptions)
    (hc : ¬((!opts.no_page && !opts.no_table) = true))
    (hall : ∀ h ∈ m1.headers, hdrKeep opts.no_page opts.no_table h = true)
    (hrows : ∀ r ∈ m1.rows, r.length ≤ m1.headers.length) :
    apply_output_column_filters m1 opts = m1 := by
  unfold apply_output_column_filters
  rw [if_neg hc]
  have hkeep := keep_indices_all_kept opts.no_page opts.no_table m1.headers hall
  rw [hkeep]
  have hh : (List.range m1.headers.length).filterMap (fun i => m1.headers.get? i)
      = m1.headers := by
    rw [range_filterMap_get?, List.take_length]
  have hr : m1.rows.map
      (fun row => (List.range m1.headers.length).filterMap (fun i => row.get? i))
      = m1.rows := by
    have key : ∀ r ∈ m1.rows,
        (List.range m1.headers.length).filterMap (fun i => r.get? i) = id r := by
      intro r hrm
      rw [range_filterMap_get?]
      exact List.take_of_length_le (hrows r hrm)
    rw [List.map_congr_left key, List.map_id]
  show MergedOutput.mk
      ((List.range m1.headers.length).filterMap (fun i => m1.headers.get? i))
      (m1.rows.map (fun row => (List.range m1.headers.length).filterMap (fun i => row.get? i)))
      m1.table_count m1.row_count = m1
  rw [hh, hr]

/-- Claim C8: the column projection is idempotent for every option setting;
in particular applying the no_page projection twice equals applying it once,
and likewise for no_table. -/
theorem C8_projection_idempotent (m : MergedOutput) (opts : ExtractOptions) :
    apply_output_column_filters (apply_output_column_filters m opts) opts =
      apply_output_column_filters m opts := by
  by_cases hc : (!opts.no_page && !opts.no_table) = true
  · unfold apply_output_column_filters
    simp [hc]
  · have hheaders : (apply_output_column_filters m opts).headers =
        m.headers.filter (hdrKeep opts.no_page opts.no_table) := by
      unfold apply_output_column_filters
      rw [if_neg hc]
      exact keep_indices_filterMap opts.no_page opts.no_table m.headers
    apply proj_second_pass _ opts hc
    · intro h hh
      rw [hheaders] at hh
      exact List.of_mem_filter hh
    · intro r hr
      have hrows1 : (apply_output_column_filters m opts).rows =
          m.rows.map (fun row =>
            (keep_indices_go opts.no_page opts.no_table 0 m.headers).filterMap
              (fun i => row.get? i)) := by
        unfold apply_output_column_filters
        rw [if_neg hc]
      rw [hrows1] at hr
      obtain ⟨row, _, rfl⟩ := List.mem_map.mp hr
      have h1 : ((keep_indices_go opts.no_page opts.no_table 0 m.headers).filterMap
          (fun i => row.get? i)).length ≤
          (keep_indices_go opts.no_page opts.no_table 0 m.headers).length :=
        List.length_filterMap_le _ _
      have h2 : (keep_indices_go opts.no_page opts.no_table 0 m.headers).length =
          (apply_output_column_filters m opts).headers.length := by
        rw [hheaders, keep_indices_length]
      omega

/- ===== lemmas for C1 ===== -/

theorem vecResize_length (row : List Str) (w : Nat) : (vecResize row w).length = w := by
  unfold vecResize
  rw [List.length_append, List.length_take, List.length_replicate]
  omega

theorem foldr_max_ge (l : List Nat) (x : Nat) (hx : x ∈ l) : x ≤ l.foldr max 0 := by
  induction l with
  | nil => cases hx
  | cons a t ih =>
      rcases List.mem_cons.mp hx with rfl | hx2
      · exact le_max_left _ _
      · exact le_trans (ih hx2) (le_max_right _ _)

theorem le_global_width (tables : List PreparedTable) (t : PreparedTable)
    (ht : t ∈ tables) (r : List Str) (hr : r ∈ t.rows) :
    r.length ≤ global_width tables := by
  apply foldr_max_ge
  rw [List.mem_flatMap]
  exact ⟨t, ht, List.mem_map_of_mem _ hr⟩

theorem vecResize_of_le (row : List Str) (w : Nat) (h : row.length ≤ w) :
    vecResize row w = row ++ List.replicate (w - row.length) ([] : Str) := by
  unfold vecResize
  rw [List.take_of_length_le h]

theorem merge_headers_length (tables : List PreparedTable) :
    (merge_tables tables).headers.length = global_width tables + 2 := by
  unfold merge_tables
  simp [List.length_range']

theorem merge_rows_shape (tables : List PreparedTable) :
    ∀ r ∈ (merge_tables tables).rows, r.length = global_width tables + 2 := by
  intro r hr
  unfold merge_tables at hr
  simp only [List.mem_flatMap, List.mem_map] at hr
  obtain ⟨t, _, ⟨vr, hvr, rfl⟩⟩ := hr
  unfold normalize_rows at hvr
  obtain ⟨row, _, rfl⟩ := List.mem_map.mp hvr
  simp [vecResize_length]

theorem merge_padding (tables : List PreparedTable) (t : PreparedTable) (ht : t ∈ tables)
    (r : List Str) (hr : r ∈ t.rows) :
    natToStr t.page :: natToStr t.table_id ::
      (r ++ List.replicate (global_width tables - r.length) ([] : Str)) ∈
        (merge_tables tables).rows := by
  unfold merge_tables
  simp only [List.mem_flatMap]
  refine ⟨t, ht, ?_⟩
  rw [← vecResize_of_le r (global_width tables) (le_global_width tables t ht r hr)]
  exact List.mem_map_of_mem _ (List.mem_map_of_mem _ hr)

theorem filters_preserve_widths (m : MergedOutput) (opts : ExtractOptions)
    (hm : ∀ r ∈ m.rows, r.length = m.headers.length) :
    ∀ r ∈ (apply_output_column_filters m opts).rows,
      r.length = (apply_output_column_filters m opts).headers.length := by
  intro r hr
  unfold apply_output_column_filters at hr ⊢
  by_cases hc : (!opts.no_page && !opts.no_table) = true
  · rw [if_pos hc] at hr ⊢
    exact hm r hr
  · rw [if_neg hc] at hr ⊢
    simp only [List.mem_map] at hr
    obtain ⟨row, hrow, rfl⟩ := hr
    show _ = ((keep_indices_go opts.no_page opts.no_table 0 m.headers).filterMap
      (fun i => m.headers.get? i)).length
    rw [keep_indices_filterMap_row opts.no_page opts.no_table m.headers row (hm row hrow),
      keep_indices_filterMap]

theorem rename_preserves_widths (m : MergedOutput) (opts : ExtractOptions)
    (hm : ∀ r ∈ m.rows, r.length = m.headers.length) :
    ∀ r ∈ (apply_custom_column_names m opts).rows,
      r.length = (apply_custom_column_names m opts).headers.length := by
  intro r hr
  rcases hcc : opts.custom_col_names with _ | ⟨c1, c2⟩
  · simp only [apply_custom_column_names, hcc] at hr ⊢
    exact hm r hr
  · simp only [apply_custom_column_names, hcc] at hr ⊢
    rw [List.length_map]
    exact hm r hr

theorem foldl_preserve {α σ : Type} (f : σ → α → σ) (P : σ → Prop) :
    ∀ (l : List α), (∀ s a, a ∈ l → P s → P (f s a)) → ∀ s, P s → P (l.foldl f s) := by
  intro l
  induction l with
  | nil => intro _ s hs; exact hs
  | cons a t ih =>
      intro hstep s hs
      rw [List.foldl_cons]
      exact ih (fun s2 b hb hs2 => hstep s2 b (by simp [hb]) hs2) (f s a)
        (hstep s a (by simp) hs)

theorem dedup_go_shape (Q : Str → Prop) :
    ∀ (entries : List CalendarEntry) (st : List Str × List (List Str)),
      (∀ en ∈ entries, Q en.date) →
      (∀ r ∈ st.2, ∃ d e, r = [("1".toList), ("1".toList), d, e] ∧ Q d) →
      ∀ r ∈ (dedup_go entries st).2, ∃ d e, r = [("1".toList), ("1".toList), d, e] ∧ Q d := by
  intro entries
  induction entries with
  | nil => intro st _ hst r hr; exact hst r hr
  | cons entry rest ih =>
      intro st hq hst r hr
      unfold dedup_go at hr
      apply ih _ (fun en hen => hq en (by simp [hen])) _ r hr
      apply foldl_preserve _
        (fun (s : List Str × List (List Str)) =>
          ∀ r2 ∈ s.2, ∃ d e, r2 = [("1".toList), ("1".toList), d, e] ∧ Q d)
        (split_mixed_event entry.event)
        ?_ st hst
      intro s ev _ hP
      by_cases hk : (entry.date ++ '|' :: ev) ∈ s.1
      · simpa [hk] using hP
      · simp only [hk, if_false]
        intro r2 hr2
        rw [List.mem_append] at hr2
        rcases hr2 with hr2 | hr2
        · exact hP r2 hr2
        · rw [List.mem_singleton] at hr2
          exact ⟨entry.date, ev, hr2, hq entry (by simp)⟩

theorem fromtext_rows_shape (text : Str) :
    ∀ r ∈ (clean_calendar_from_text text).rows,
      ∃ d e, r = [("1".toList), ("1".toList), d, e] := by
  intro r hr
  have h := dedup_go_shape (fun _ => True)
    (push_current ((rust_lines text).foldl process_line ([], none)).1
      ((rust_lines text).foldl process_line ([], none)).2)
    ([], []) (fun _ _ => trivial) (by intro r2 hr2; cases hr2) r hr
  obtain ⟨d, e, hre, _⟩ := h
  exact ⟨d, e, hre⟩

theorem cco_cells_shape (page tid : Str) :
    ∀ (cells : List Str) (st : List Str × List (List Str)),
      (∀ r ∈ st.2, ∃ p t d e, r = [p, t, d, e]) →
      ∀ r ∈ (cco_cells page tid cells st).2, ∃ p t d e, r = [p, t, d, e] := by
  intro cells
  induction cells with
  | nil => intro st hst r hr; exact hst r hr
  | cons cell rest ih =>
      intro st hst r hr
      unfold cco_cells at hr
      by_cases h1 : find_date_tokens cell = []
      · rw [if_pos h1] at hr
        exact ih st hst r hr
      · rw [if_neg h1] at hr
        rcases hfe : find_event_cell rest with _ | ev
        · rw [hfe] at hr
          exact ih st hst r hr
        · rw [hfe] at hr
          dsimp only at hr
          by_cases hk : (page ++ '|' :: tid ++ '|' ::
              normalize_date_token (rust_trim cell) ++ '|' :: ev) ∈ st.1
          · rw [if_pos hk] at hr
            exact ih st hst r hr
          · rw [if_neg hk] at hr
            apply ih _ ?_ r hr
            intro r2 hr2
            rw [List.mem_append] at hr2
            rcases hr2 with hr2 | hr2
            · exact hst r2 hr2
            · rw [List.mem_singleton] at hr2
              exact ⟨page, tid, normalize_date_token (rust_trim cell), ev, hr2⟩

theorem cco_rows_shape (m0 : MergedOutput) :
    ∀ r ∈ (clean_calendar_output m0).rows, ∃ p t d e, r = [p, t, d, e] := by
  intro r hr
  unfold clean_calendar_output at hr
  simp only at hr
  refine foldl_preserve _
    (fun (st : List Str × List (List Str)) => ∀ r2 ∈ st.2, ∃ p t d e, r2 = [p, t, d, e])
    m0.rows ?_ ([], []) (by intro r2 hr2; cases hr2) r hr
  intro st row _ hst
  by_cases hlen : row.length < 4
  · simpa [hlen] using hst
  · simp only [hlen, if_false]
    exact cco_cells_shape (row.getD 0 []) (row.getD 1 []) (row.drop 2) st hst

/-- Claim C1: for every extraction that succeeds, every row of the final
merged output (after column projection and renaming) has exactly as many
fields as there are headers, whichever producer built the pre-projection
output (table merger, calendar text path, or calendar post-process path);
and in the merger every source row is padded to the global width with empty
strings. -/
theorem C1_row_field_count (tables : List PreparedTable) (text : Str)
    (m0 : MergedOutput) (opts : ExtractOptions) :
    (∀ r ∈ (project_and_rename (merge_tables tables) opts).rows,
        r.length = (project_and_rename (merge_tables tables) opts).headers.length) ∧
    (∀ r ∈ (project_and_rename (clean_calendar_from_text text) opts).rows,
        r.length = (project_and_rename (clean_calendar_from_text text) opts).headers.length) ∧
    (∀ r ∈ (project_and_rename (clean_calendar_output m0) opts).rows,
        r.length = (project_and_rename (clean_calendar_output m0) opts).headers.length) ∧
    (∀ t ∈ tables, ∀ r ∈ t.rows,
        natToStr t.page :: natToStr t.table_id ::
          (r ++ List.replicate (global_width tables - r.length) ([] : Str)) ∈
            (merge_tables tables).rows) := by
  have base : ∀ m : MergedOutput, (∀ r ∈ m.rows, r.length = m.headers.length) →
      ∀ r ∈ (project_and_rename m opts).rows,
        r.length = (project_and_rename m opts).headers.length := by
    intro m hm
    exact rename_preserves_widths _ opts (filters_preserve_widths m opts hm)
  refine ⟨base _ ?_, base _ ?_, base _ ?_, ?_⟩
  · intro r hr
    rw [merge_headers_length]
    exact merge_rows_shape tables r hr
  · intro r hr
    obtain ⟨d, e, rfl⟩ := fromtext_rows_shape text r hr
    rfl
  · intro r hr
    obtain ⟨p, t2, d, e, rfl⟩ := cco_rows_shape m0 r hr
    rfl
  · intro t ht r hr
    exact merge_padding tables t ht r hr

theorem C1_row_field_count_witness :
    ((("a".toList) :: ("b".toList) :: []).length =
      (project_and_rename
        (merge_tables [⟨1, 1, [[("a".toList), ("b".toList)], [("c".toList)]]⟩])
        ⟨true, true, some (("date".toList), ("event".toList)),
          .bestEffort, .autoDetect, true, 2⟩).headers.length) ∧
    (natToStr 1 :: natToStr 1 ::
        ((("c".toList) :: []) ++
          List.replicate
            (global_width [⟨1, 1, [[("a".toList), ("b".toList)], [("c".toList)]]⟩] -
              (("c".toList) :: []).length) ([] : Str)) ∈
      (merge_tables [⟨1, 1, [[("a".toList), ("b".toList)], [("c".toList)]]⟩]).rows) :=
  ⟨((C1_row_field_count
      [⟨1, 1, [[("a".toList), ("b".toList)], [("c".toList)]]⟩] ([] : Str)
      ⟨[], [], 0, 0⟩
      ⟨true, true, some (("date".toList), ("event".toList)),
        .bestEffort, .autoDetect, true, 2⟩).1
      (("a".toList) :: ("b".toList) :: []) (by decide)),
   ((C1_row_field_count
      [⟨1, 1, [[("a".toList), ("b".toList)], [("c".toList)]]⟩] ([] : Str)
      ⟨[], [], 0, 0⟩
      ⟨true, true, some (("date".toList), ("event".toList)),
        .bestEffort, .autoDetect, true, 2⟩).2.2.2
      ⟨1, 1, [[("a".toList), ("b".toList)], [("c".toList)]]⟩ (by decide)
      (("c".toList) :: []) (by decide))⟩

/-- Claim C4: the pipeline returns AmbiguousTable with a page and confidence
exactly when the quality mode is Strict and some detected table has
confidence below 0.60; under BestEffort and SkipAmbiguous the stage always
returns Ok and every low-confidence table yields a LowConfidence warning
carrying its page and confidence. -/
theorem C4_quality_mode (tables : List DetectedTable) (mode : QualityMode) :
    ((∃ p c, apply_quality_mode tables mode = .error (.ambiguousTable p c)) ↔
      (mode = .strict ∧ ∃ t ∈ tables, t.confidence < LOW_CONFIDENCE_THRESHOLD)) ∧
    (mode ≠ .strict → ∃ out,
        apply_quality_mode tables mode = .ok out ∧
        ∀ t ∈ tables, t.confidence < LOW_CONFIDENCE_THRESHOLD →
          ∃ w ∈ out.2, w.code = .lowConfidence ∧ w.page = some t.page ∧
            w.confidence = some t.confidence) := by
  induction tables with
  | nil =>
      constructor
      · constructor
        · rintro ⟨p, c, h⟩
          simp [apply_quality_mode] at h
        · rintro ⟨_, t, ht, _⟩
          cases ht
      · intro _
        exact ⟨([], []), rfl, by rintro t ht; cases ht⟩
  | cons t rest ih =>
      by_cases hconf : LOW_CONFIDENCE_THRESHOLD ≤ t.confidence
      · rcases hrec : apply_quality_mode rest mode with e | out
        · have hres : apply_quality_mode (t :: rest) mode = .error e := by
            simp only [apply_quality_mode, if_pos hconf, hrec]
          constructor
          · rw [hres]
            constructor
            · rintro ⟨p, c, h⟩
              have : apply_quality_mode rest mode = .error (.ambiguousTable p c) := by
                rw [hrec]
                exact_mod_cast h
              obtain ⟨hm, t2, ht2, hlow⟩ := ih.1.mp ⟨p, c, this⟩
              exact ⟨hm, t2, by simp [ht2], hlow⟩
            · rintro ⟨hm, t2, ht2, hlow⟩
              rcases List.mem_cons.mp ht2 with rfl | ht3
              · exact absurd hlow (not_lt.mpr hconf)
              · obtain ⟨p, c, h⟩ := ih.1.mpr ⟨hm, t2, ht3, hlow⟩
                rw [hrec] at h
                exact ⟨p, c, by rw [← h]⟩
          · intro hne
            obtain ⟨out2, hout2, _⟩ := ih.2 hne
            rw [hrec] at hout2
            cases hout2
        · have hres : apply_quality_mode (t :: rest) mode = .ok (t :: out.1, out.2) := by
            simp only [apply_quality_mode, if_pos hconf, hrec]
          constructor
          · rw [hres]
            constructor
            · rintro ⟨p, c, h⟩
              cases h
            · rintro ⟨hm, t2, ht2, hlow⟩
              rcases List.mem_cons.mp ht2 with rfl | ht3
              · exact absurd hlow (not_lt.mpr hconf)
              · obtain ⟨p, c, h⟩ := ih.1.mpr ⟨hm, t2, ht3, hlow⟩
                rw [hrec] at h
                cases h
          · intro hne
            obtain ⟨out2, hout2, hws⟩ := ih.2 hne
            rw [hrec] at hout2
            cases hout2
            refine ⟨(t :: out.1, out.2), hres, ?_⟩
            intro t2 ht2 hlow
            rcases List.mem_cons.mp ht2 with rfl | ht3
            · exact absurd hlow (not_lt.mpr hconf)
            · exact hws t2 ht3 hlow
      · cases mode with
        | strict =>
            have hres : apply_quality_mode (t :: rest) .strict =
                .error (.ambiguousTable t.page t.confidence) := by
              simp only [apply_quality_mode, if_neg hconf]
            constructor
            · rw [hres]
              constructor
              · intro _
                exact ⟨rfl, t, by simp, not_le.mp hconf⟩
              · intro _
                exact ⟨t.page, t.confidence, rfl⟩
            · intro hne
              exact absurd rfl hne
        | bestEffort =>
            rcases hrec : apply_quality_mode rest .bestEffort with e | out
            · obtain ⟨out2, hout2, _⟩ := ih.2 (by simp)
              rw [hrec] at hout2
              cases hout2
            · have hres : apply_quality_mode (t :: rest) .bestEffort =
                  .ok (t :: out.1,
                    { code := .lowConfidence,
                      message := ("table confidence is low; exported in best-effort mode".toList),
                      page := some t.page, confidence := some t.confidence } :: out.2) := by
                simp only [apply_quality_mode, if_neg hconf, hrec]
              constructor
              · rw [hres]
                constructor
                · rintro ⟨p, c, h⟩
                  cases h
                · rintro ⟨hm, _⟩
                  cases hm
              · intro _
                obtain ⟨out2, hout2, hws⟩ := ih.2 (by simp)
                rw [hrec] at hout2
                cases hout2
                refine ⟨_, hres, ?_⟩
                intro t2 ht2 hlow
                rcases List.mem_cons.mp ht2 with rfl | ht3
                · exact ⟨_, List.mem_cons_self _ _, rfl, rfl, rfl⟩
                · obtain ⟨w, hw, hwp⟩ := hws t2 ht3 hlow
                  exact ⟨w, by simp [hw], hwp⟩
        | skipAmbiguous =>
            rcases hrec : apply_quality_mode rest .skipAmbiguous with e | out
            · obtain ⟨out2, hout2, _⟩ := ih.2 (by simp)
              rw [hrec] at hout2
              cases hout2
            · have hres : apply_quality_mode (t :: rest) .skipAmbiguous =
                  .ok (out.1,
                    { code := .lowConfidence,
                      message := ("skipping low-confidence table".toList),
                      page := some t.page, confidence := some t.confidence } :: out.2) := by
                simp only [apply_quality_mode, if_neg hconf, hrec]
              constructor
              · rw [hres]
                constructor
                · rintro ⟨p, c, h⟩
                  cases h
                · rintro ⟨hm, _⟩
                  cases hm
              · intro _
                obtain ⟨out2, hout2, hws⟩ := ih.2 (by simp)
                rw [hrec] at hout2
                cases hout2
                refine ⟨_, hres, ?_⟩
                intro t2 ht2 hlow
                rcases List.mem_cons.mp ht2 with rfl | ht3
                · exact ⟨_, List.mem_cons_self _ _, rfl, rfl, rfl⟩
                · obtain ⟨w, hw, hwp⟩ := hws t2 ht3 hlow
                  exact ⟨w, by simp [hw], hwp⟩

theorem C4_quality_mode_witness :
    ∃ out,
      apply_quality_mode [⟨3, [[("a".toList)]], 1/2, .auto⟩] .bestEffort = .ok out ∧
      ∀ t ∈ [(⟨3, [[("a".toList)]], 1/2, .auto⟩ : DetectedTable)],
        t.confidence < LOW_CONFIDENCE_THRESHOLD →
          ∃ w ∈ out.2, w.code = .lowConfidence ∧ w.page = some t.page ∧
            w.confidence = some t.confidence :=
  (C4_quality_mode [⟨3, [[("a".toList)]], 1/2, .auto⟩] .bestEffort).2 (by decide)

theorem non_numeric_frac_all_numeric (cells : List Str)
    (h : ∀ c ∈ cells, is_numeric c = true) : non_numeric_frac cells = 0 := by
  unfold non_numeric_frac
  by_cases hc : cells = []
  · rw [if_pos hc]
  · rw [if_neg hc]
    have : cells.filter (fun c => !is_numeric c) = [] := by
      rw [List.filter_eq_nil_iff]
      intro c hcm
      simp [h c hcm]
    rw [this]
    simp

theorem second_frac_eq (rest : List (List Str)) :
    (match rest.head? with
      | some r => non_numeric_frac r
      | none => 0) = non_numeric_frac (rest.headD []) := by
  cases rest with
  | nil => simp [non_numeric_frac]
  | cons r t => simp

/-- Claim C5: under AutoDetect, for every non-empty detected table the first
row is dropped exactly when the non-numeric fraction of row zero is at least
0.6, that of row one (zero when missing) is at most 0.7, and
clamp(0.6*first_nn + 0.4*(1-second_nn), 0, 1) is at least 0.55; a
HeaderInferenceLowConfidence warning is emitted exactly when that confidence
is below 0.55; and with an all-numeric first row no header is inferred. -/
theorem C5_header_autodetect (t : DetectedTable) (tid : Nat) (hne : t.rows ≠ []) :
    ((apply_header_mode t .autoDetect tid).1 = t.rows.drop 1 ↔
      (6/10 ≤ non_numeric_frac (t.rows.headD []) ∧
       non_numeric_frac (t.rows.getD 1 []) ≤ 7/10 ∧
       11/20 ≤ qclamp ((6/10) * non_numeric_frac (t.rows.headD []) +
         (4/10) * (1 - non_numeric_frac (t.rows.getD 1 []))) 0 1)) ∧
    ((apply_header_mode t .autoDetect tid).2 ≠ [] ↔
      qclamp ((6/10) * non_numeric_frac (t.rows.headD []) +
        (4/10) * (1 - non_numeric_frac (t.rows.getD 1 []))) 0 1 < 11/20) ∧
    ((t.rows.headD []).all is_numeric →
      (apply_header_mode t .autoDetect tid).1 = t.rows) := by
  rcases hrows : t.rows with _ | ⟨first, rest⟩
  · exact absurd hrows hne
  rw [← hrows]
  have hhead : (t.rows.headD []) = first := by rw [hrows]; rfl
  have hget1 : (t.rows.getD 1 []) = rest.headD [] := by rw [hrows]; cases rest <;> rfl
  have hinfer : infer_has_header t.rows =
      (decide (6/10 ≤ non_numeric_frac first) &&
        decide (non_numeric_frac (rest.headD []) ≤ 7/10),
       qclamp (non_numeric_frac first * (6/10) +
         (1 - non_numeric_frac (rest.headD [])) * (4/10)) 0 1) := by
    rw [hrows]
    dsimp only [infer_has_header]
    rw [second_frac_eq]
  have hconf_eq : qclamp (non_numeric_frac first * (6/10) +
      (1 - non_numeric_frac (rest.headD [])) * (4/10)) 0 1 =
      qclamp ((6/10) * non_numeric_frac first +
        (4/10) * (1 - non_numeric_frac (rest.headD []))) 0 1 := by
    ring_nf
  rw [hhead, hget1]
  set F := non_numeric_frac first with hF
  set S := non_numeric_frac (rest.headD []) with hS
  set CONF := qclamp ((6/10) * F + (4/10) * (1 - S)) 0 1 with hCONF
  have happ : apply_header_mode t .autoDetect tid =
      (if (decide (6/10 ≤ F) && decide (S ≤ 7/10)) && decide (55/100 ≤ CONF)
       then (t.rows.drop 1, [])
       else (t.rows,
         if CONF < 55/100 then
           [{ code := .headerInferenceLowConfidence,
              message := ("header inference confidence is low; keeping the first row as data".toList),
              page := some t.page, table_id := some tid, confidence := some CONF }]
         else [])) := by
    unfold apply_header_mode
    rw [if_neg (hrows ▸ hne), hinfer]
    simp only [hconf_eq, ← hCONF]
  have heq1 : (11/20 : ℚ) = 55/100 := by norm_num
  constructor
  · rw [happ]
    by_cases hcond : ((decide (6/10 ≤ F) && decide (S ≤ 7/10)) && decide (55/100 ≤ CONF)) = true
    · rw [if_pos hcond]
      simp only [Bool.and_eq_true, decide_eq_true_eq] at hcond
      simp only [heq1]
      constructor
      · intro _
        exact ⟨hcond.1.1, hcond.1.2, hcond.2⟩
      · intro _
        trivial
    · rw [if_neg hcond]
      simp only [Bool.and_eq_true, decide_eq_true_eq, not_and_or] at hcond
      constructor
      · intro hdrop
        rw [hrows] at hdrop
        simp at hdrop
      · rintro ⟨h1, h2, h3⟩
        rw [heq1] at h3
        rcases hcond with (hc | hc) | hc
        · exact absurd h1 hc
        · exact absurd h2 hc
        · exact absurd h3 hc
  constructor
  · rw [happ]
    by_cases hcond : ((decide (6/10 ≤ F) && decide (S ≤ 7/10)) && decide (55/100 ≤ CONF)) = true
    · rw [if_pos hcond]
      simp only [Bool.and_eq_true, decide_eq_true_eq] at hcond
      simp only [heq1]
      constructor
      · intro hw
        exact absurd rfl hw
      · intro hlt
        exact absurd hcond.2 (not_le.mpr hlt)
    · rw [if_neg hcond]
      by_cases h55 : CONF < 55/100
      · simp only [if_pos h55, heq1]
        constructor
        · intro _
          exact h55
        · intro _
          simp
      · simp only [if_neg h55, heq1]
        constructor
        · intro hw
          exact absurd rfl hw
        · intro hlt
          exact absurd hlt h55
  · intro hall
    rw [happ]
    have hF0 : F = 0 := by
      rw [hF]
      exact non_numeric_frac_all_numeric first (by simpa [List.all_eq_true] using hall)
    have : ¬(6/10 ≤ F) := by
      rw [hF0]
      norm_num
    have hcond : ¬(((decide (6/10 ≤ F) && decide (S ≤ 7/10)) && decide (55/100 ≤ CONF)) = true) := by
      simp only [Bool.and_eq_true, decide_eq_true_eq]
      tauto
    rw [if_neg hcond]

theorem C5_header_autodetect_witness :
    ((apply_header_mode ⟨1, [[("Name".toList), ("Age".toList)],
        [("Alice".toList), ("30".toList)]], 1, .auto⟩ .autoDetect 1).1 =
      ([[("Name".toList), ("Age".toList)], [("Alice".toList), ("30".toList)]] :
        List (List Str)).drop 1 ↔
      (6/10 ≤ non_numeric_frac (([[("Name".toList), ("Age".toList)],
          [("Alice".toList), ("30".toList)]] : List (List Str)).headD []) ∧
       non_numeric_frac (([[("Name".toList), ("Age".toList)],
          [("Alice".toList), ("30".toList)]] : List (List Str)).getD 1 []) ≤ 7/10 ∧
       11/20 ≤ qclamp ((6/10) * non_numeric_frac (([[("Name".toList), ("Age".toList)],
          [("Alice".toList), ("30".toList)]] : List (List Str)).headD []) +
         (4/10) * (1 - non_numeric_frac (([[("Name".toList), ("Age".toList)],
          [("Alice".toList), ("30".toList)]] : List (List Str)).getD 1 []))) 0 1)) :=
  (C5_header_autodetect ⟨1, [[("Name".toList), ("Age".toList)],
      [("Alice".toList), ("30".toList)]], 1, .auto⟩ 1 (by decide)).1

/- ===== lemmas for C6 ===== -/

theorem digitChar_toNat (n : Nat) (h : n < 10) : (digitChar n).toNat = 48 + n := by
  interval_cases n <;> rfl

theorem strVal_append_single (s : Str) (c : Char) :
    strVal (s ++ [c]) = 10 * strVal s + (c.toNat - 48) := by
  unfold strVal
  rw [List.foldl_append]
  rfl

theorem strVal_natToStrGo : ∀ fuel n, n < fuel → strVal (natToStrGo fuel n) = n := by
  intro fuel
  induction fuel with
  | zero => intro n h; omega
  | succ f ih =>
      intro n h
      unfold natToStrGo
      by_cases h10 : n < 10
      · rw [if_pos h10]
        show strVal ([] ++ [digitChar n]) = n
        rw [strVal_append_single, digitChar_toNat n h10]
        unfold strVal
        simp
      · rw [if_neg h10]
        rw [strVal_append_single]
        have hdiv : n / 10 < f := by omega
        rw [ih (n / 10) hdiv, digitChar_toNat (n % 10) (by omega)]
        omega

theorem natToStr_inj (a b : Nat) (h : natToStr a = natToStr b) : a = b := by
  have ha := strVal_natToStrGo (a + 1) a (by omega)
  have hb := strVal_natToStrGo (b + 1) b (by omega)
  unfold natToStr at h
  rw [← ha, ← hb, h]

theorem prepare_go_tid_gt (mode : HeaderMode) :
    ∀ (tables : List DetectedTable) (idx : Nat) (p : PreparedTable),
      p ∈ (prepare_tables_go mode idx tables).1 → idx < p.table_id := by
  intro tables
  induction tables with
  | nil =>
      intro idx p hp
      unfold prepare_tables_go at hp
      cases hp
  | cons t rest ih =>
      intro idx p hp
      unfold prepare_tables_go at hp
      dsimp only at hp
      by_cases hr : (apply_header_mode t mode (idx + 1)).1 = []
      · rw [if_pos hr] at hp
        have := ih (idx + 1) p hp
        omega
      · rw [if_neg hr] at hp
        rcases List.mem_cons.mp hp with rfl | hp2
        · exact Nat.lt_succ_self idx
        · have := ih (idx + 1) p hp2
          omega

theorem prepare_go_rows_ne (mode : HeaderMode) :
    ∀ (tables : List DetectedTable) (idx : Nat) (p : PreparedTable),
      p ∈ (prepare_tables_go mode idx tables).1 → p.rows ≠ [] := by
  intro tables
  induction tables with
  | nil =>
      intro idx p hp
      unfold prepare_tables_go at hp
      cases hp
  | cons t rest ih =>
      intro idx p hp
      unfold prepare_tables_go at hp
      dsimp only at hp
      by_cases hr : (apply_header_mode t mode (idx + 1)).1 = []
      · rw [if_pos hr] at hp
        exact ih (idx + 1) p hp
      · rw [if_neg hr] at hp
        rcases List.mem_cons.mp hp with rfl | hp2
        · exact hr
        · exact ih (idx + 1) p hp2

theorem prepare_go_pairwise (mode : HeaderMode) :
    ∀ (tables : List DetectedTable) (idx : Nat),
      List.Pairwise (fun a b : PreparedTable => a.table_id < b.table_id)
        (prepare_tables_go mode idx tables).1 := by
  intro tables
  induction tables with
  | nil =>
      intro idx
      unfold prepare_tables_go
      exact List.Pairwise.nil
  | cons t rest ih =>
      intro idx
      unfold prepare_tables_go
      dsimp only
      by_cases hr : (apply_header_mode t mode (idx + 1)).1 = []
      · rw [if_pos hr]
        exact ih (idx + 1)
      · rw [if_neg hr]
        refine List.Pairwise.cons ?_ (ih (idx + 1))
        intro p hp
        exact prepare_go_tid_gt mode rest (idx + 1) p hp

theorem map_const_toFinset {α : Type} [DecidableEq α] (s : α) :
    ∀ (l : List (List Str)), l ≠ [] → (l.map (fun _ => s)).toFinset = {s} := by
  intro l
  induction l with
  | nil => intro h; exact absurd rfl h
  | cons x t ih =>
      intro _
      by_cases ht : t = []
      · subst ht
        simp
      · rw [List.map_cons, List.toFinset_cons, ih ht]
        simp

theorem dedup_len_blocks :
    ∀ P : List PreparedTable, (∀ p ∈ P, p.rows ≠ []) →
      List.Pairwise (fun a b : PreparedTable => a.table_id < b.table_id) P →
      ((P.flatMap (fun t => t.rows.map (fun _ => natToStr t.table_id))).toFinset).card =
        P.length := by
  intro P
  induction P with
  | nil => intro _ _; simp
  | cons p rest ih =>
      intro hne hpw
      rw [List.flatMap_cons, List.toFinset_append,
        map_const_toFinset (natToStr p.table_id) p.rows (hne p (by simp))]
      have hnotmem : natToStr p.table_id ∉
          (rest.flatMap (fun t => t.rows.map (fun _ => natToStr t.table_id))).toFinset := by
        rw [List.mem_toFinset, List.mem_flatMap]
        rintro ⟨q, hq, hmem⟩
        rw [List.mem_map] at hmem
        obtain ⟨_, _, heq⟩ := hmem
        have hlt := (List.pairwise_cons.mp hpw).1 q hq
        have := natToStr_inj q.table_id p.table_id heq
        omega
      rw [← Finset.insert_eq, Finset.card_insert_of_not_mem hnotmem,
        ih (fun q hq => hne q (by simp [hq])) (List.pairwise_cons.mp hpw).2]
      simp

theorem merge_tid_list (P : List PreparedTable) :
    (merge_tables P).rows.map (fun r => r.getD 1 []) =
      P.flatMap (fun t => t.rows.map (fun _ => natToStr t.table_id)) := by
  unfold merge_tables
  dsimp only
  rw [List.map_flatMap]
  congr 1
  funext t
  unfold normalize_rows
  rw [List.map_map, List.map_map]
  rfl

theorem dedup_const {α : Type} [DecidableEq α] (a : α) :
    ∀ l : List α, (∀ x ∈ l, x = a) → l ≠ [] → l.dedup.length = 1 := by
  intro l
  induction l with
  | nil => intro _ h; exact absurd rfl h
  | cons x t ih =>
      intro hall _
      have hx : x = a := hall x (by simp)
      subst hx
      by_cases ht : t = []
      · subst ht
        rfl
      · have hmem : x ∈ t := by
          match t, ht with
          | y :: t2, _ =>
            have : y = x := (hall y (by simp)).trans rfl
            simp [this]
        rw [List.dedup_cons_of_mem hmem]
        exact ih (fun z hz => hall z (by simp [hz])) ht

/-- Claim C6: for every merged output the pipeline produces before column
projection (the table merger applied to the pipeline-prepared tables, the
calendar text path, or the calendar post-process path), table_count equals
the number of distinct table_id values present in the rows. -/
theorem C6_table_count (dts : List DetectedTable) (mode : HeaderMode) (text : Str)
    (m0 : MergedOutput) :
    ((merge_tables (prepare_tables dts mode).1).table_count =
      (((merge_tables (prepare_tables dts mode).1).rows.map
        (fun r => r.getD 1 [])).dedup).length) ∧
    ((clean_calendar_from_text text).table_count =
      (((clean_calendar_from_text text).rows.map (fun r => r.getD 1 [])).dedup).length) ∧
    ((clean_calendar_output m0).table_count =
      (((clean_calendar_output m0).rows.map (fun r => r.getD 1 [])).dedup).length) := by
  refine ⟨?_, ?_, ?_⟩
  · have h1 : (merge_tables (prepare_tables dts mode).1).table_count =
        (prepare_tables dts mode).1.length := rfl
    rw [h1, merge_tid_list, ← List.card_toFinset]
    have hP : (prepare_tables dts mode).1 = (prepare_tables_go mode 0 dts).1 := rfl
    rw [hP]
    exact (dedup_len_blocks _ (fun p hp => prepare_go_rows_ne mode dts 0 p hp)
      (prepare_go_pairwise mode dts 0)).symm
  · have htc : (clean_calendar_from_text text).table_count =
        if (clean_calendar_from_text text).rows = [] then 0 else 1 := rfl
    rw [htc]
    by_cases hr : (clean_calendar_from_text text).rows = []
    · rw [if_pos hr, hr]
      rfl
    · rw [if_neg hr]
      have hall : ∀ x ∈ (clean_calendar_from_text text).rows.map (fun r => r.getD 1 []),
          x = ("1".toList) := by
        intro x hx
        rw [List.mem_map] at hx
        obtain ⟨r, hrm, rfl⟩ := hx
        obtain ⟨d, e, rfl⟩ := fromtext_rows_shape text r hrm
        rfl
      have hne2 : (clean_calendar_from_text text).rows.map (fun r => r.getD 1 []) ≠ [] := by
        intro hcon
        exact hr (List.map_eq_nil_iff.mp hcon)
      rw [dedup_const ("1".toList) _ hall hne2]
  · rfl

/- ===== trim and noDbl lemmas (for C9) ===== -/

theorem dropWhile_idem {α : Type} (p : α → Bool) (l : List α) :
    (l.dropWhile p).dropWhile p = l.dropWhile p := by
  induction l with
  | nil => rfl
  | cons x t ih =>
      by_cases hx : p x
      · rw [List.dropWhile_cons_of_pos hx]
        exact ih
      · rw [List.dropWhile_cons_of_neg hx, List.dropWhile_cons_of_neg hx]

theorem trim_start_head (s : Str) :
    trim_start s = [] ∨ ∃ a t, trim_start s = a :: t ∧ rust_is_whitespace a = false := by
  induction s with
  | nil => exact Or.inl rfl
  | cons x t ih =>
      unfold trim_start at ih ⊢
      by_cases hx : rust_is_whitespace x
      · rw [List.dropWhile_cons_of_pos hx]
        exact ih
      · rw [List.dropWhile_cons_of_neg hx]
        exact Or.inr ⟨x, t, rfl, by simpa using hx⟩

theorem trim_end_leading (s : Str) : trim_end s <+: s := by
  unfold trim_end
  have h := List.dropWhile_suffix (l := s.reverse) rust_is_whitespace
  have h2 := List.reverse_prefix.mpr h
  simpa using h2

theorem trim_end_eq_nil_iff (s : Str) :
    trim_end s = [] ↔ ∀ x ∈ s, rust_is_whitespace x = true := by
  unfold trim_end
  rw [List.reverse_eq_nil_iff, List.dropWhile_eq_nil_iff]
  constructor
  · intro h x hx
    exact h x (by simpa using hx)
  · intro h x hx
    exact h x (by simpa using hx)

theorem rust_trim_eq_nil_trim_start (s : Str) (h : rust_trim s = []) : trim_start s = [] := by
  unfold rust_trim at h
  rcases trim_start_head s with h0 | ⟨a, t, heq, hnw⟩
  · exact h0
  · rw [heq] at h
    have := (trim_end_eq_nil_iff (a :: t)).mp h a (by simp)
    rw [this] at hnw
    cases hnw

theorem rust_trim_subset (s : Str) : rust_trim s ⊆ s := by
  intro c hc
  unfold rust_trim at hc
  have h1 := (trim_end_leading (trim_start s)).subset hc
  exact (List.dropWhile_suffix rust_is_whitespace).subset h1

theorem trim_start_idem (s : Str) : trim_start (trim_start s) = trim_start s :=
  dropWhile_idem rust_is_whitespace s

theorem trim_end_idem (s : Str) : trim_end (trim_end s) = trim_end s := by
  unfold trim_end
  rw [List.reverse_reverse, dropWhile_idem]

theorem trim_start_of_prefix (s p : Str) (hs : trim_start s = s) (hp : p <+: s) :
    trim_start p = p := by
  cases p with
  | nil => rfl
  | cons a t =>
      obtain ⟨r, hr⟩ := hp
      cases s with
      | nil => cases hr
      | cons b u =>
          have hab : a = b := by
            have := congrArg (List.head?) hr
            simpa using this
          subst hab
          unfold trim_start at hs ⊢
          by_cases hw : rust_is_whitespace a
          · rw [List.dropWhile_cons_of_pos hw] at hs
            have hlen := congrArg List.length hs
            have hle := (List.dropWhile_suffix (l := u) rust_is_whitespace).sublist.length_le
            simp at hlen
            omega
          · rw [List.dropWhile_cons_of_neg hw]

theorem rust_trim_idem (s : Str) : rust_trim (rust_trim s) = rust_trim s := by
  unfold rust_trim
  have h1 : trim_start (trim_end (trim_start s)) = trim_end (trim_start s) :=
    trim_start_of_prefix (trim_start s) _ (trim_start_idem s) (trim_end_leading _)
  rw [h1, trim_end_idem]

theorem noDbl_append_left : ∀ (l t : Str), noDbl (l ++ t) = true → noDbl l = true := by
  intro l
  induction l with
  | nil => intro t _; rfl
  | cons a l2 ih =>
      intro t h
      cases l2 with
      | nil => rfl
      | cons b l3 =>
          rw [List.cons_append, List.cons_append] at h
          unfold noDbl at h ⊢
          rw [Bool.and_eq_true] at h ⊢
          refine ⟨h.1, ?_⟩
          apply ih t
          rw [List.cons_append]
          exact h.2

theorem noDbl_prefix (p l : Str) (hp : p <+: l) (h : noDbl l = true) : noDbl p = true := by
  obtain ⟨r, rfl⟩ := hp
  exact noDbl_append_left p r h

theorem noDbl_append_single : ∀ (l : Str) (c : Char), noDbl l = true →
    (l.getLast? = some ' ' → c ≠ ' ') → noDbl (l ++ [c]) = true := by
  intro l
  induction l with
  | nil => intro c _ _; rfl
  | cons a l2 ih =>
      intro c h hl
      cases l2 with
      | nil =>
          show noDbl (a :: c :: []) = true
          unfold noDbl
          rw [Bool.and_eq_true]
          refine ⟨?_, rfl⟩
          by_cases ha : a = ' '
          · have hc := hl (by rw [ha]; rfl)
            simp [hc]
          · simp [ha]
      | cons b l3 =>
          have h2 : noDbl (b :: l3) = true := by
            unfold noDbl at h
            rw [Bool.and_eq_true] at h
            exact h.2
          have hab : (!(decide (a = ' ') && decide (b = ' '))) = true := by
            unfold noDbl at h
            rw [Bool.and_eq_true] at h
            exact h.1
          have hl2 : (b :: l3).getLast? = some ' ' → c ≠ ' ' := by
            intro hg
            exact hl (by rw [List.getLast?_cons_cons]; exact hg)
          have hres := ih c h2 hl2
          show noDbl (a :: b :: (l3 ++ [c])) = true
          unfold noDbl
          rw [Bool.and_eq_true]
          refine ⟨hab, ?_⟩
          rw [← List.cons_append]
          exact hres

theorem flush_cellOK (st : SplitAcc) (hinv : splitInv st)
    (hne : rust_trim st.current ≠ []) : cellOK (rust_trim st.current) := by
  refine ⟨hne, rust_trim_idem st.current, ?_, ?_, ?_⟩
  · intro hmem
    exact hinv.2.1 (rust_trim_subset st.current hmem)
  · intro ch hmem hws
    exact hinv.2.2.1 ch (rust_trim_subset st.current hmem) hws
  · exact noDbl_prefix _ _ (trim_end_leading (trim_start st.current)) hinv.2.2.2.1

theorem split_step_inv (st : SplitAcc) (ch : Char) (hinv : splitInv st) :
    splitInv (split_step st ch) := by
  obtain ⟨hcells, htab, hws, hnd, hrun⟩ := hinv
  unfold split_step
  by_cases htabc : ch = '\t'
  · rw [if_pos htabc]
    by_cases hne : rust_trim st.current ≠ []
    · rw [if_pos hne]
      refine ⟨?_, by simp, by simp, rfl, fun _ => by simp [trim_start]⟩
      intro c hc
      rcases List.mem_append.mp hc with hm | hm
      · exact hcells c hm
      · rw [List.mem_singleton] at hm
        subst hm
        exact flush_cellOK st ⟨hcells, htab, hws, hnd, hrun⟩ hne
    · rw [if_neg hne]
      push_neg at hne
      have h0 : trim_start st.current = [] := rust_trim_eq_nil_trim_start _ hne
      exact ⟨hcells, htab, hws, hnd, fun _ => by rw [h0]; simp⟩
  · rw [if_neg htabc]
    by_cases hwsc : rust_is_whitespace ch
    · rw [if_pos hwsc]
      by_cases h2 : 2 ≤ st.run + 1
      · rw [if_pos h2]
        by_cases hne : rust_trim st.current ≠ []
        · rw [if_pos hne]
          refine ⟨?_, by simp, by simp, rfl, fun hr0 => by cases hr0⟩
          · intro c hc
            rcases List.mem_append.mp hc with hm | hm
            · exact hcells c hm
            · rw [List.mem_singleton] at hm
              subst hm
              exact flush_cellOK st ⟨hcells, htab, hws, hnd, hrun⟩ hne
        · rw [if_neg hne]
          exact ⟨hcells, htab, hws, hnd, fun hr0 => by cases hr0⟩
      · rw [if_neg h2]
        have hr0 : st.run = 0 := by omega
        refine ⟨hcells, ?_, ?_, ?_, fun hr1 => by cases hr1⟩
        · intro hm
          rcases List.mem_append.mp hm with hm | hm
          · exact htab hm
          · rw [List.mem_singleton] at hm
            have : (' ' : Char) ≠ '\t' := by decide
            exact this hm.symm
        · intro c hm hcws
          rcases List.mem_append.mp hm with hm | hm
          · exact hws c hm hcws
          · rw [List.mem_singleton] at hm
            exact hm
        · unfold trim_start
          rw [List.dropWhile_append]
          by_cases hemp : (st.current.dropWhile rust_is_whitespace).isEmpty = true
          · rw [if_pos hemp]
            have : rust_is_whitespace ' ' = true := by decide
            rw [List.dropWhile_cons_of_pos this]
            rfl
          · rw [if_neg hemp]
            apply noDbl_append_single _ _ hnd
            intro hlast _
            exact (hrun hr0) hlast
    · rw [if_neg hwsc]
      have hchsp : ch ≠ ' ' := by
        intro hc
        subst hc
        exact hwsc (by decide)
      have hts : trim_start (st.current ++ [ch]) =
          (if (st.current.dropWhile rust_is_whitespace).isEmpty = true
           then [ch] else trim_start st.current ++ [ch]) := by
        unfold trim_start
        rw [List.dropWhile_append]
        by_cases hemp : (st.current.dropWhile rust_is_whitespace).isEmpty = true
        · rw [if_pos hemp, if_pos hemp, List.dropWhile_cons_of_neg (by simpa using hwsc)]
        · rw [if_neg hemp, if_neg hemp]
      refine ⟨hcells, ?_, ?_, ?_, ?_⟩
      · intro hm
        rcases List.mem_append.mp hm with hm | hm
        · exact htab hm
        · rw [List.mem_singleton] at hm
          subst hm
          exact hwsc (by decide)
      · intro c hm hcws
        rcases List.mem_append.mp hm with hm | hm
        · exact hws c hm hcws
        · rw [List.mem_singleton] at hm
          subst hm
          exact absurd hcws (by simpa using hwsc)
      · rw [hts]
        by_cases hemp : (st.current.dropWhile rust_is_whitespace).isEmpty = true
        · rw [if_pos hemp]
          rfl
        · rw [if_neg hemp]
          apply noDbl_append_single _ _ hnd
          intro _ hcsp
          exact hchsp hcsp
      · intro _
        rw [hts]
        by_cases hemp : (st.current.dropWhile rust_is_whitespace).isEmpty = true
        · rw [if_pos hemp]
          simp [hchsp]
        · rw [if_neg hemp]
          rw [List.getLast?_concat]
          simp [hchsp]

/-- Claim C9: split_line_into_cells returns the empty list on blank lines,
and every emitted cell is nonempty, trimmed, contains no tab, keeps interior
whitespace only as single literal ASCII spaces, and never contains a
whitespace run of length two or more; concrete splits show the tab break,
the break on a double space, and the kept single interior space. -/
theorem C9_split_line (line : Str) :
    (rust_trim line = [] → split_line_into_cells line = []) ∧
    (∀ c ∈ split_line_into_cells line, cellOK c) ∧
    split_line_into_cells ("a b  c".toList) = [("a b".toList), ("c".toList)] ∧
    split_line_into_cells ("A\tB\tC".toList) =
      [("A".toList), ("B".toList), ("C".toList)] := by
  have hinit : splitInv ⟨[], [], 0⟩ := by
    refine ⟨?_, ?_, ?_, rfl, ?_⟩
    · intro c hc
      cases hc
    · intro hm
      cases hm
    · intro ch hm
      cases hm
    · intro _
      simp [trim_start]
  refine ⟨?_, ?_, by decide, by decide⟩
  · intro h
    unfold split_line_into_cells
    rw [if_pos h]
  · intro c hc
    unfold split_line_into_cells at hc
    by_cases h0 : rust_trim line = []
    · rw [if_pos h0] at hc
      cases hc
    · rw [if_neg h0] at hc
      have hinv : splitInv ((rust_trim line).foldl split_step ⟨[], [], 0⟩) :=
        foldl_preserve split_step splitInv (rust_trim line)
          (fun st ch _ hst => split_step_inv st ch hst) ⟨[], [], 0⟩ hinit
      by_cases hcur :
          rust_trim ((rust_trim line).foldl split_step ⟨[], [], 0⟩).current ≠ []
      · rw [if_pos hcur] at hc
        rcases List.mem_append.mp hc with hm | hm
        · exact hinv.1 c hm
        · rw [List.mem_singleton] at hm
          subst hm
          exact flush_cellOK _ hinv hcur
      · rw [if_neg hcur] at hc
        exact hinv.1 c hc

theorem C9_split_line_witness :
    cellOK ("a b".toList) ∧ split_line_into_cells ([] : Str) = [] :=
  ⟨(C9_split_line ("a b  c".toList)).2.1 ("a b".toList)
      (by rw [(C9_split_line ("a b  c".toList)).2.2.1]; simp),
   (C9_split_line ([] : Str)).1 (by decide)⟩

/-- Claim C7 (amended): clean_event_text prepends an opening parenthesis to
the value it builds exactly when that value starts with 上課後, contains a
closing parenthesis, and does not start with an opening parenthesis; when it
prepends, the result is that value with one opening parenthesis in front. -/
theorem C7_clean_event_prepend (s : Str) :
    (clean_event_text s ≠ clean_event_pre s ↔
      (("上課後".toList).isPrefixOf (clean_event_pre s) = true ∧
       (clean_event_pre s).contains ')' = true ∧
       (clean_event_pre s).head? ≠ some '(')) ∧
    (clean_event_text s ≠ clean_event_pre s →
      clean_event_text s = '(' :: clean_event_pre s) := by
  unfold clean_event_text
  by_cases hcond : (("上課後".toList).isPrefixOf (clean_event_pre s) = true ∧
      (clean_event_pre s).contains ')' = true ∧
      (clean_event_pre s).head? ≠ some '(')
  · rw [if_pos hcond]
    constructor
    · constructor
      · intro _
        exact hcond
      · intro _ heq
        have := congrArg List.length heq
        simp at this
    · intro _
      rfl
  · rw [if_neg hcond]
    constructor
    · constructor
      · intro hne
        exact absurd rfl hne
      · intro hc
        exact absurd hc hcond
    · intro hne
      exact absurd rfl hne

/-- Claim C7 as stated is false on the code: for the input 上課後(補課) the
built value contains an opening parenthesis, yet clean_event_text still
prepends one. -/
theorem C7_clean_event_counterexample :
    clean_event_text ("上課後(補課)".toList) =
      '(' :: clean_event_pre ("上課後(補課)".toList) ∧
    (clean_event_pre ("上課後(補課)".toList)).contains '(' = true ∧
    clean_event_pre ("上課後(補課)".toList) = ("上課後(補課)".toList) := by
  refine ⟨by decide, by decide, by decide⟩

theorem C7_clean_event_prepend_witness :
    clean_event_text ("上課後(補課)".toList) =
      '(' :: clean_event_pre ("上課後(補課)".toList) :=
  (C7_clean_event_prepend ("上課後(補課)".toList)).2 (by decide)

/- ===== lemmas for C3 ===== -/

theorem dedup_go_pairwise :
    ∀ (entries : List CalendarEntry) (st : List Str × List (List Str)),
      (List.Pairwise (fun r1 r2 : List Str =>
          r1.getD 2 [] ++ '|' :: r1.getD 3 [] ≠ r2.getD 2 [] ++ '|' :: r2.getD 3 []) st.2 ∧
        ∀ r ∈ st.2, (r.getD 2 [] ++ '|' :: r.getD 3 []) ∈ st.1) →
      List.Pairwise (fun r1 r2 : List Str =>
          r1.getD 2 [] ++ '|' :: r1.getD 3 [] ≠ r2.getD 2 [] ++ '|' :: r2.getD 3 [])
        (dedup_go entries st).2 ∧
      ∀ r ∈ (dedup_go entries st).2,
        (r.getD 2 [] ++ '|' :: r.getD 3 []) ∈ (dedup_go entries st).1 := by
  intro entries
  induction entries with
  | nil => intro st h; exact h
  | cons entry rest ih =>
      intro st h
      unfold dedup_go
      apply ih
      apply foldl_preserve _
        (fun (s : List Str × List (List Str)) =>
          List.Pairwise (fun r1 r2 : List Str =>
            r1.getD 2 [] ++ '|' :: r1.getD 3 [] ≠ r2.getD 2 [] ++ '|' :: r2.getD 3 []) s.2 ∧
          ∀ r ∈ s.2, (r.getD 2 [] ++ '|' :: r.getD 3 []) ∈ s.1)
        (split_mixed_event entry.event) ?_ st h
      intro s ev _ hP
      by_cases hk : (entry.date ++ '|' :: ev) ∈ s.1
      · simpa [hk] using hP
      · simp only [hk, if_false]
        constructor
        · rw [List.pairwise_append]
          refine ⟨hP.1, List.pairwise_singleton _ _, ?_⟩
          intro r1 hr1 r2 hr2
          rw [List.mem_singleton] at hr2
          subst hr2
          intro hkeyeq
          exact hk (hkeyeq ▸ hP.2 r1 hr1)
        · intro r hr
          rcases List.mem_append.mp hr with hm | hm
          · exact List.mem_cons_of_mem _ (hP.2 r hm)
          · rw [List.mem_singleton] at hm
            subst hm
            exact List.mem_cons_self _ _

theorem cco_cells_pairwise (page tid : Str) :
    ∀ (cells : List Str) (st : List Str × List (List Str)),
      (List.Pairwise (fun r1 r2 : List Str =>
          r1.getD 0 [] ++ '|' :: r1.getD 1 [] ++ '|' :: r1.getD 2 [] ++ '|' :: r1.getD 3 [] ≠
          r2.getD 0 [] ++ '|' :: r2.getD 1 [] ++ '|' :: r2.getD 2 [] ++ '|' :: r2.getD 3 []) st.2 ∧
        ∀ r ∈ st.2,
          (r.getD 0 [] ++ '|' :: r.getD 1 [] ++ '|' :: r.getD 2 [] ++ '|' :: r.getD 3 []) ∈ st.1) →
      List.Pairwise (fun r1 r2 : List Str =>
          r1.getD 0 [] ++ '|' :: r1.getD 1 [] ++ '|' :: r1.getD 2 [] ++ '|' :: r1.getD 3 [] ≠
          r2.getD 0 [] ++ '|' :: r2.getD 1 [] ++ '|' :: r2.getD 2 [] ++ '|' :: r2.getD 3 [])
        (cco_cells page tid cells st).2 ∧
      ∀ r ∈ (cco_cells page tid cells st).2,
        (r.getD 0 [] ++ '|' :: r.getD 1 [] ++ '|' :: r.getD 2 [] ++ '|' :: r.getD 3 []) ∈
          (cco_cells page tid cells st).1 := by
  intro cells
  induction cells with
  | nil => intro st h; exact h
  | cons cell rest ih =>
      intro st h
      unfold cco_cells
      by_cases h1 : find_date_tokens cell = []
      · rw [if_pos h1]
        exact ih st h
      · rw [if_neg h1]
        rcases hfe : find_event_cell rest with _ | ev
        · exact ih st h
        · dsimp only
          by_cases hk : (page ++ '|' :: tid ++ '|' ::
              normalize_date_token (rust_trim cell) ++ '|' :: ev) ∈ st.1
          · rw [if_pos hk]
            exact ih st h
          · rw [if_neg hk]
            apply ih
            constructor
            · rw [List.pairwise_append]
              refine ⟨h.1, List.pairwise_singleton _ _, ?_⟩
              intro r1 hr1 r2 hr2
              rw [List.mem_singleton] at hr2
              subst hr2
              intro hkeyeq
              exact hk (hkeyeq ▸ h.2 r1 hr1)
            · intro r hr
              rcases List.mem_append.mp hr with hm | hm
              · exact List.mem_cons_of_mem _ (h.2 r hm)
              · rw [List.mem_singleton] at hm
                subst hm
                exact List.mem_cons_self _ _

/-- Claim C3 (amended): the calendar text path never emits two rows with the
same date and event; the post-process path never emits two identical rows
(it deduplicates by the full page, table_id, date, event tuple). -/
theorem C3_dedup_amended (text : Str) (m0 : MergedOutput) :
    List.Pairwise (fun r1 r2 : List Str =>
      ¬(r1.getD 2 [] = r2.getD 2 [] ∧ r1.getD 3 [] = r2.getD 3 []))
      (clean_calendar_from_text text).rows ∧
    List.Pairwise (fun r1 r2 : List Str => r1 ≠ r2) (clean_calendar_output m0).rows := by
  constructor
  · have h := dedup_go_pairwise
      (push_current ((rust_lines text).foldl process_line ([], none)).1
        ((rust_lines text).foldl process_line ([], none)).2)
      ([], []) ⟨List.Pairwise.nil, by intro r hr; cases hr⟩
    refine List.Pairwise.imp ?_ h.1
    intro r1 r2 hne ⟨h2, h3⟩
    rw [h2, h3] at hne
    exact hne rfl
  · have hstep : ∀ (st : List Str × List (List Str)) (row : List Str),
        (List.Pairwise (fun r1 r2 : List Str =>
            r1.getD 0 [] ++ '|' :: r1.getD 1 [] ++ '|' :: r1.getD 2 [] ++ '|' :: r1.getD 3 [] ≠
            r2.getD 0 [] ++ '|' :: r2.getD 1 [] ++ '|' :: r2.getD 2 [] ++ '|' :: r2.getD 3 []) st.2 ∧
          ∀ r ∈ st.2,
            (r.getD 0 [] ++ '|' :: r.getD 1 [] ++ '|' :: r.getD 2 [] ++ '|' :: r.getD 3 []) ∈ st.1) →
        (List.Pairwise (fun r1 r2 : List Str =>
            r1.getD 0 [] ++ '|' :: r1.getD 1 [] ++ '|' :: r1.getD 2 [] ++ '|' :: r1.getD 3 [] ≠
            r2.getD 0 [] ++ '|' :: r2.getD 1 [] ++ '|' :: r2.getD 2 [] ++ '|' :: r2.getD 3 [])
          ((if row.length < 4 then st
            else cco_cells (row.getD 0 []) (row.getD 1 []) (row.drop 2) st)).2 ∧
          ∀ r ∈ ((if row.length < 4 then st
            else cco_cells (row.getD 0 []) (row.getD 1 []) (row.drop 2) st)).2,
            (r.getD 0 [] ++ '|' :: r.getD 1 [] ++ '|' :: r.getD 2 [] ++ '|' :: r.getD 3 []) ∈
              ((if row.length < 4 then st
                else cco_cells (row.getD 0 []) (row.getD 1 []) (row.drop 2) st)).1) := by
      intro st row hP
      by_cases hlen : row.length < 4
      · rw [if_pos hlen]
        exact hP
      · rw [if_neg hlen]
        exact cco_cells_pairwise (row.getD 0 []) (row.getD 1 []) (row.drop 2) st hP
    have h := foldl_preserve
      (fun (st : List Str × List (List Str)) row =>
        if row.length < 4 then st
        else cco_cells (row.getD 0 []) (row.getD 1 []) (row.drop 2) st)
      (fun (st : List Str × List (List Str)) =>
        List.Pairwise (fun r1 r2 : List Str =>
            r1.getD 0 [] ++ '|' :: r1.getD 1 [] ++ '|' :: r1.getD 2 [] ++ '|' :: r1.getD 3 [] ≠
            r2.getD 0 [] ++ '|' :: r2.getD 1 [] ++ '|' :: r2.getD 2 [] ++ '|' :: r2.getD 3 []) st.2 ∧
          ∀ r ∈ st.2,
            (r.getD 0 [] ++ '|' :: r.getD 1 [] ++ '|' :: r.getD 2 [] ++ '|' :: r.getD 3 []) ∈ st.1)
      m0.rows (fun st row _ hP => hstep st row hP)
      ([], []) ⟨List.Pairwise.nil, by intro r hr; cases hr⟩
    refine List.Pairwise.imp ?_ h.1
    intro r1 r2 hne heq
    rw [heq] at hne
    exact hne rfl

/-- Claim C3 as stated is false on the code: the post-process path keeps two
rows that carry the same date and the same event when their table ids
differ. -/
theorem C3_dedup_counterexample :
    ((clean_calendar_output
      { headers := [("page".toList), ("table_id".toList), ("col_1".toList),
          ("col_2".toList), ("col_3".toList)],
        rows := [
          [("1".toList), ("1".toList), ("8/1".toList), ("開學".toList), ([] : Str)],
          [("1".toList), ("2".toList), ("8/1".toList), ("開學".toList), ([] : Str)]],
        table_count := 2, row_count := 2 }).rows.length = 2) ∧
    (((clean_calendar_output
      { headers := [("page".toList), ("table_id".toList), ("col_1".toList),
          ("col_2".toList), ("col_3".toList)],
        rows := [
          [("1".toList), ("1".toList), ("8/1".toList), ("開學".toList), ([] : Str)],
          [("1".toList), ("2".toList), ("8/1".toList), ("開學".toList), ([] : Str)]],
        table_count := 2, row_count := 2 }).rows.getD 0 []).getD 2 [] =
      ((clean_calendar_output
      { headers := [("page".toList), ("table_id".toList), ("col_1".toList),
          ("col_2".toList), ("col_3".toList)],
        rows := [
          [("1".toList), ("1".toList), ("8/1".toList), ("開學".toList), ([] : Str)],
          [("1".toList), ("2".toList), ("8/1".toList), ("開學".toList), ([] : Str)]],
        table_count := 2, row_count := 2 }).rows.getD 1 []).getD 2 []) ∧
    (((clean_calendar_output
      { headers := [("page".toList), ("table_id".toList), ("col_1".toList),
          ("col_2".toList), ("col_3".toList)],
        rows := [
          [("1".toList), ("1".toList), ("8/1".toList), ("開學".toList), ([] : Str)],
          [("1".toList), ("2".toList), ("8/1".toList), ("開學".toList), ([] : Str)]],
        table_count := 2, row_count := 2 }).rows.getD 0 []).getD 3 [] =
      ((clean_calendar_output
      { headers := [("page".toList), ("table_id".toList), ("col_1".toList),
          ("col_2".toList), ("col_3".toList)],
        rows := [
          [("1".toList), ("1".toList), ("8/1".toList), ("開學".toList), ([] : Str)],
          [("1".toList), ("2".toList), ("8/1".toList), ("開學".toList), ([] : Str)]],
        table_count := 2, row_count := 2 }).rows.getD 1 []).getD 3 []) := by
  refine ⟨by decide, by decide, by decide⟩

/- ===== lemmas for C2 ===== -/

theorem digit_toNat (c : Char) (h : c.isDigit = true) :
    48 ≤ c.toNat ∧ c.toNat ≤ 57 := by
  simp [Char.isDigit] at h
  exact h

theorem digit_not_ws (c : Char) (h : c.isDigit = true) :
    rust_is_whitespace c = false := by
  have hb := digit_toNat c h
  unfold rust_is_whitespace
  simp only [decide_eq_false_iff_not]
  omega

theorem digit_not_mapped (c : Char) (h : c.isDigit = true) :
    ¬(c = '～' ∨ c = '-' ∨ c = '－' ∨ c = '—') := by
  rintro (rfl | rfl | rfl | rfl) <;> simp at h

theorem normalize_append (a b : Str) :
    normalize_date_token (a ++ b) = normalize_date_token a ++ normalize_date_token b := by
  unfold normalize_date_token
  rw [List.filter_append, List.map_append]

theorem normalize_keep (l : Str)
    (h : ∀ c ∈ l, rust_is_whitespace c = false ∧
      ¬(c = '～' ∨ c = '-' ∨ c = '－' ∨ c = '—')) :
    normalize_date_token l = l := by
  unfold normalize_date_token
  rw [List.filter_eq_self.mpr (fun a ha => by simp [(h a ha).1])]
  have : ∀ c ∈ l, (if c = '～' ∨ c = '-' ∨ c = '－' ∨ c = '—' then '~' else c) = id c := by
    intro c hc
    rw [if_neg (h c hc).2]
    rfl
  rw [List.map_congr_left this, List.map_id]

theorem normalize_ws_nil (l : Str)
    (h : ∀ c ∈ l, rust_is_whitespace c = true) : normalize_date_token l = [] := by
  unfold normalize_date_token
  rw [List.filter_eq_nil_iff.mpr (fun a ha => by simp [h a ha]), List.map_nil]

theorem normalize_sep (c : Char) (h : is_range_sep c = true) :
    normalize_date_token [c] = ['~'] := by
  unfold is_range_sep at h
  rw [decide_eq_true_eq] at h
  rcases h with rfl | rfl | rfl | rfl | rfl <;> decide

theorem normalize_digits (l : Str) (h : l.all Char.isDigit = true) :
    normalize_date_token l = l := by
  apply normalize_keep
  intro c hc
  have hd := (List.all_eq_true.mp h) c hc
  exact ⟨digit_not_ws c hd, digit_not_mapped c hd⟩

theorem normalize_slash : normalize_date_token ['/'] = ['/'] := by decide

theorem normalize_qi : normalize_date_token ['起'] = ['起'] := by decide

theorem take_takeWhile_len {α : Type} (p : α → Bool) (l : List α) (n : Nat)
    (hn : n ≤ (l.takeWhile p).length) : l.take n = (l.takeWhile p).take n := by
  obtain ⟨r, hr⟩ := List.takeWhile_prefix (l := l) p
  conv_lhs => rw [← hr]
  exact List.take_append_of_le_length hn

theorem parse_month_day_decomp (s : Str) (k : Nat) (h : parse_month_day_at s = some k) :
    ∃ M D rest,
      s = M ++ '/' :: (D ++ rest) ∧
      M.all Char.isDigit = true ∧ D.all Char.isDigit = true ∧
      1 ≤ M.length ∧ M.length ≤ 2 ∧ 1 ≤ D.length ∧ D.length ≤ 2 ∧
      k = M.length + 1 + D.length := by
  unfold parse_month_day_at at h
  dsimp only at h
  split at h
  · cases h
  · rename_i h0
    split at h
    · rename_i rest1 heq
      split at h
      · rename_i hm
        split at h
        · cases h
        · rename_i hd0
          split at h
          · rename_i hdv
            injection h with hk
            set mdig := min (s.takeWhile Char.isDigit).length 2 with hmdig
            set ddig := min (rest1.takeWhile Char.isDigit).length 2 with hddig
            have hmle : mdig ≤ (s.takeWhile Char.isDigit).length := by omega
            have hdle : ddig ≤ (rest1.takeWhile Char.isDigit).length := by omega
            have hdlen : ddig ≤ rest1.length := by
              have := (List.takeWhile_prefix (l := rest1) Char.isDigit).length_le
              omega
            have hmlen : mdig ≤ s.length := by
              have := (List.takeWhile_prefix (l := s) Char.isDigit).length_le
              omega
            refine ⟨s.take mdig, rest1.take ddig, rest1.drop ddig,
              ?_, ?_, ?_, ?_, ?_, ?_, ?_, ?_⟩
            · rw [List.take_append_drop ddig rest1]
              conv_lhs => rw [← List.take_append_drop mdig s]
              rw [heq]
            · rw [take_takeWhile_len Char.isDigit s mdig hmle, List.all_eq_true]
              intro x hx
              exact List.mem_takeWhile_imp (List.take_subset _ _ hx)
            · rw [take_takeWhile_len Char.isDigit rest1 ddig hdle, List.all_eq_true]
              intro x hx
              exact List.mem_takeWhile_imp (List.take_subset _ _ hx)
            · rw [List.length_take]
              omega
            · rw [List.length_take]
              omega
            · rw [List.length_take]
              omega
            · rw [List.length_take]
              omega
            · rw [List.length_take, List.length_take]
              omega
          · cases h
      · cases h
    · cases h

theorem chompDigits12_spec (M rest : Str)
    (hall : M.all Char.isDigit = true) (h1 : 1 ≤ M.length) (h2 : M.length ≤ 2)
    (hrest : ∀ c, rest.head? = some c → c.isDigit = false) :
    chompDigits12 (M ++ rest) = some rest := by
  rcases M with _ | ⟨a, M1⟩
  · simp at h1
  · rcases M1 with _ | ⟨b, M2⟩
    · have ha : a.isDigit = true := by simpa using hall
      show chompDigits12 (a :: rest) = some rest
      cases rest with
      | nil => simp [chompDigits12, ha]
      | cons c2 r2 =>
          have hc2 := hrest c2 rfl
          simp [chompDigits12, ha, hc2]
    · rcases M2 with _ | ⟨e, M3⟩
      · have ha : a.isDigit = true := by
          simp [List.all_eq_true] at hall
          exact hall.1
        have hb : b.isDigit = true := by
          simp [List.all_eq_true] at hall
          exact hall.2
        show chompDigits12 (a :: b :: rest) = some rest
        simp [chompDigits12, ha, hb]
      · simp at h2

theorem chompMD_spec (M D rest : Str)
    (hM : M.all Char.isDigit = true) (hM1 : 1 ≤ M.length) (hM2 : M.length ≤ 2)
    (hD : D.all Char.isDigit = true) (hD1 : 1 ≤ D.length) (hD2 : D.length ≤ 2)
    (hrest : ∀ c, rest.head? = some c → c.isDigit = false) :
    chompMD (M ++ '/' :: (D ++ rest)) = some rest := by
  unfold chompMD
  rw [chompDigits12_spec M ('/' :: (D ++ rest)) hM hM1 hM2
    (by intro c hc; injection hc with hc; rw [← hc]; rfl)]
  show chompDigits12 (D ++ rest) = some rest
  exact chompDigits12_spec D rest hD hD1 hD2 hrest

theorem qi_head_ok (G : Str) (hG : G = [] ∨ G = ['起']) :
    ∀ c, G.head? = some c → c.isDigit = false := by
  rcases hG with rfl | rfl
  · intro c hc
    cases hc
  · intro c hc
    injection hc with hc
    rw [← hc]
    decide

theorem qi_tilde_head_ok (G T : Str) (hG : G = [] ∨ G = ['起']) :
    ∀ c, (G ++ '~' :: T).head? = some c → c.isDigit = false := by
  rcases hG with rfl | rfl
  · intro c hc
    injection hc with hc
    rw [← hc]
    decide
  · intro c hc
    injection hc with hc
    rw [← hc]
    decide

theorem amended_accepts_norange (M D G1 : Str)
    (hM : M.all Char.isDigit = true) (hM1 : 1 ≤ M.length) (hM2 : M.length ≤ 2)
    (hD : D.all Char.isDigit = true) (hD1 : 1 ≤ D.length) (hD2 : D.length ≤ 2)
    (hG1 : G1 = [] ∨ G1 = ['起']) :
    matchesDatePatternAmended (M ++ '/' :: (D ++ G1)) = true := by
  have h1 := chompMD_spec M D G1 hM hM1 hM2 hD hD1 hD2 (qi_head_ok G1 hG1)
  rcases hG1 with rfl | rfl <;>
    (try simp only [List.append_nil, List.nil_append] at h1) <;>
    simp [matchesDatePatternAmended, h1, chompOpt]

theorem amended_accepts_range (M D G1 M2 D2 G2 : Str)
    (hM : M.all Char.isDigit = true) (hM1 : 1 ≤ M.length) (hM2 : M.length ≤ 2)
    (hD : D.all Char.isDigit = true) (hD1 : 1 ≤ D.length) (hD2 : D.length ≤ 2)
    (hM2a : M2.all Char.isDigit = true) (hM2b : 1 ≤ M2.length) (hM2c : M2.length ≤ 2)
    (hD2a : D2.all Char.isDigit = true) (hD2b : 1 ≤ D2.length) (hD2c : D2.length ≤ 2)
    (hG1 : G1 = [] ∨ G1 = ['起']) (hG2 : G2 = [] ∨ G2 = ['起']) :
    matchesDatePatternAmended
      (M ++ '/' :: (D ++ (G1 ++ '~' :: (M2 ++ '/' :: (D2 ++ G2))))) = true := by
  have h1 := chompMD_spec M D (G1 ++ '~' :: (M2 ++ '/' :: (D2 ++ G2)))
    hM hM1 hM2 hD hD1 hD2 (qi_tilde_head_ok G1 _ hG1)
  have h2 := chompMD_spec M2 D2 G2 hM2a hM2b hM2c hD2a hD2b hD2c (qi_head_ok G2 hG2)
  rcases hG1 with rfl | rfl <;> rcases hG2 with rfl | rfl <;>
    (try simp only [List.append_nil, List.nil_append, List.singleton_append] at h1) <;>
    (try simp only [List.append_nil, List.nil_append, List.singleton_append] at h2) <;>
    simp [matchesDatePatternAmended, h1, h2, chompOpt]

theorem parse_take_decomp (s : Str) (k : Nat) (h : parse_month_day_at s = some k) :
    ∃ M D, M.all Char.isDigit = true ∧ D.all Char.isDigit = true ∧
      1 ≤ M.length ∧ M.length ≤ 2 ∧ 1 ≤ D.length ∧ D.length ≤ 2 ∧
      s.take k = M ++ '/' :: D := by
  obtain ⟨M, D, rest, hs, hMd, hDd, hM1, hM2, hD1, hD2, hk⟩ := parse_month_day_decomp s k h
  refine ⟨M, D, hMd, hDd, hM1, hM2, hD1, hD2, ?_⟩
  subst hs
  subst hk
  rw [show M.length + 1 + D.length = M.length + (1 + D.length) from by omega,
    List.take_add, List.take_left, List.drop_left,
    show 1 + D.length = D.length + 1 from by omega, List.take_succ_cons,
    List.take_append_of_le_length (le_refl _), List.take_length]

theorem take_ws_len (l : Str) : l.take (ws_len l) = l.takeWhile rust_is_whitespace := by
  unfold ws_len
  rw [take_takeWhile_len rust_is_whitespace l _ (le_refl _), List.take_length]

theorem drop_head_cons (s : Str) (n : Nat) (a : Char) (h : (s.drop n).head? = some a) :
    s.drop n = a :: s.drop (n + 1) := by
  rcases hd : s.drop n with _ | ⟨x, t⟩
  · rw [hd] at h
    cases h
  · rw [hd] at h
    injection h with h
    subst h
    have ht : s.drop (n + 1) = t := by
      rw [show n + 1 = n + 1 from rfl, ← List.drop_drop 1 n s, hd]
      rfl
    rw [ht]

theorem take_qi_ext (s : Str) (n : Nat) (X : Str) (htn : s.take n = X) :
    ∃ G, (G = [] ∨ G = ['起']) ∧
      s.take (if (s.drop n).head? = some '起' then n + 1 else n) = X ++ G := by
  by_cases hq : (s.drop n).head? = some '起'
  · refine ⟨['起'], Or.inr rfl, ?_⟩
    rw [if_pos hq, List.take_succ, htn]
    congr 1
    rw [← List.head?_drop, hq]
    rfl
  · exact ⟨[], Or.inl rfl, by rw [if_neg hq, htn, List.append_nil]⟩

theorem ws_piece_nil (l : Str) :
    normalize_date_token (l.takeWhile rust_is_whitespace) = [] :=
  normalize_ws_nil _ (fun _ hc => List.mem_takeWhile_imp hc)

theorem normalize_slash_cons (D : Str) (hD : D.all Char.isDigit = true) :
    normalize_date_token ('/' :: D) = '/' :: D := by
  have h : normalize_date_token (['/'] ++ D) = ['/'] ++ D := by
    rw [normalize_append, normalize_slash, normalize_digits D hD]
  simpa using h

theorem extend_token_matches (s : Str) (k : Nat) (h : parse_month_day_at s = some k) :
    matchesDatePatternAmended (normalize_date_token (s.take (extend_token s k))) = true := by
  obtain ⟨M, D, hMd, hDd, hM1, hM2, hD1, hD2, htk⟩ := parse_take_decomp s k h
  obtain ⟨G1, hG1, htk1⟩ := take_qi_ext s k (M ++ '/' :: D) htk
  set k1 := (if (s.drop k).head? = some '起' then k + 1 else k) with hk1def
  set c0 := k1 + ws_len (s.drop k1) with hc0def
  have hext0 : extend_token s k =
      (match (s.drop c0).head? with
       | some sep =>
           if is_range_sep sep then
             match parse_month_day_at (s.drop (c0 + 1 + ws_len (s.drop (c0 + 1)))) with
             | some k2 =>
                 if (s.drop (c0 + 1 + ws_len (s.drop (c0 + 1)) + k2)).head? = some '起' then
                   c0 + 1 + ws_len (s.drop (c0 + 1)) + k2 + 1
                 else c0 + 1 + ws_len (s.drop (c0 + 1)) + k2
             | none => k1
           else k1
       | none => k1) := rfl
  have hnorangeFinish :
      matchesDatePatternAmended (normalize_date_token (s.take k1)) = true := by
    rw [htk1]
    have hx : (M ++ '/' :: D) ++ G1 = M ++ (('/' :: D) ++ G1) := by
      rw [List.append_assoc]
    rw [hx, normalize_append, normalize_append, normalize_digits M hMd,
      normalize_slash_cons D hDd]
    rcases hG1 with rfl | rfl
    · have := amended_accepts_norange M D [] hMd hM1 hM2 hDd hD1 hD2 (Or.inl rfl)
      simpa [show normalize_date_token ([] : Str) = [] from rfl] using this
    · rw [normalize_qi]
      have := amended_accepts_norange M D ['起'] hMd hM1 hM2 hDd hD1 hD2 (Or.inr rfl)
      simpa [List.append_assoc, show normalize_date_token ([] : Str) = [] from rfl] using this
  rcases hsc : (s.drop c0).head? with _ | sep
  · have hext : extend_token s k = k1 := by rw [hext0, hsc]
    rw [hext]
    exact hnorangeFinish
  · by_cases hrs : is_range_sep sep = true
    · rcases hp2 : parse_month_day_at (s.drop (c0 + 1 + ws_len (s.drop (c0 + 1))))
        with _ | k2
      · have hext : extend_token s k = k1 := by
          rw [hext0, hsc]
          dsimp only
          rw [if_pos hrs, hp2]
        rw [hext]
        exact hnorangeFinish
      · obtain ⟨M2, D2, hM2d, hD2d, hM2a, hM2b, hD2a, hD2b, htk2⟩ :=
          parse_take_decomp _ k2 hp2
        obtain ⟨G2, hG2, htkE⟩ :=
          take_qi_ext s (c0 + 1 + ws_len (s.drop (c0 + 1)) + k2)
            (s.take (c0 + 1 + ws_len (s.drop (c0 + 1)) + k2)) rfl
        have hext : extend_token s k =
            (if (s.drop (c0 + 1 + ws_len (s.drop (c0 + 1)) + k2)).head? = some '起' then
               c0 + 1 + ws_len (s.drop (c0 + 1)) + k2 + 1
             else c0 + 1 + ws_len (s.drop (c0 + 1)) + k2) := by
          rw [hext0, hsc]
          dsimp only
          rw [if_pos hrs, hp2]
        rw [hext, htkE]
        have h1 : s.take (c0 + 1 + ws_len (s.drop (c0 + 1)) + k2) =
            s.take (c0 + 1 + ws_len (s.drop (c0 + 1))) ++ (M2 ++ '/' :: D2) := by
          rw [List.take_add, htk2]
        have h2 : s.take (c0 + 1 + ws_len (s.drop (c0 + 1))) =
            s.take (c0 + 1) ++ (s.drop (c0 + 1)).takeWhile rust_is_whitespace := by
          rw [List.take_add, take_ws_len]
        have h3 : s.take (c0 + 1) = s.take c0 ++ [sep] := by
          rw [List.take_succ]
          congr 1
          rw [← List.head?_drop, hsc]
          rfl
        have h4 : s.take c0 =
            ((M ++ '/' :: D) ++ G1) ++ (s.drop k1).takeWhile rust_is_whitespace := by
          rw [hc0def, List.take_add, take_ws_len, htk1]
        rw [h1, h2, h3, h4]
        simp only [normalize_append]
        rw [normalize_digits M hMd, normalize_slash_cons D hDd,
          normalize_digits M2 hM2d, normalize_slash_cons D2 hD2d,
          ws_piece_nil, ws_piece_nil, normalize_sep sep hrs]
        have hnorm : normalize_date_token (M ++ '/' :: D) =
            normalize_date_token M ++ normalize_date_token ('/' :: D) := by
          rw [← normalize_append]
        rcases hG1 with rfl | rfl <;> rcases hG2 with rfl | rfl
        · have := amended_accepts_range M D [] M2 D2 [] hMd hM1 hM2 hDd hD1 hD2
            hM2d hM2a hM2b hD2d hD2a hD2b (Or.inl rfl) (Or.inl rfl)
          simpa [List.append_assoc, show normalize_date_token ([] : Str) = [] from rfl] using this
        · rw [normalize_qi]
          have := amended_accepts_range M D [] M2 D2 ['起'] hMd hM1 hM2 hDd hD1 hD2
            hM2d hM2a hM2b hD2d hD2a hD2b (Or.inl rfl) (Or.inr rfl)
          simpa [List.append_assoc, show normalize_date_token ([] : Str) = [] from rfl] using this
        · rw [normalize_qi]
          have := amended_accepts_range M D ['起'] M2 D2 [] hMd hM1 hM2 hDd hD1 hD2
            hM2d hM2a hM2b hD2d hD2a hD2b (Or.inr rfl) (Or.inl rfl)
          simpa [List.append_assoc, show normalize_date_token ([] : Str) = [] from rfl] using this
        · rw [normalize_qi]
          have := amended_accepts_range M D ['起'] M2 D2 ['起'] hMd hM1 hM2 hDd hD1 hD2
            hM2d hM2a hM2b hD2d hD2a hD2b (Or.inr rfl) (Or.inr rfl)
          simpa [List.append_assoc, show normalize_date_token ([] : Str) = [] from rfl] using this
    · have hext : extend_token s k = k1 := by
        rw [hext0, hsc]
        dsimp only
        rw [if_neg hrs]
      rw [hext]
      exact hnorangeFinish

theorem find_go_matches :
    ∀ (fuel idx : Nat) (prev : Option Char) (rest : Str) (trip : Nat × Nat × Str),
      trip ∈ find_go fuel idx prev rest → matchesDatePatternAmended trip.2.2 = true := by
  intro fuel
  induction fuel with
  | zero =>
      intro idx prev rest trip htrip
      cases htrip
  | succ f ih =>
      intro idx prev rest trip htrip
      unfold find_go at htrip
      rcases rest with _ | ⟨c, rtail⟩
      · cases htrip
      · dsimp only at htrip
        split at htrip
        · exact ih _ _ _ trip htrip
        · split at htrip
          · exact ih _ _ _ trip htrip
          · rename_i k hp
            split at htrip
            · exact ih _ _ _ trip htrip
            · split at htrip
              · exact ih _ _ _ trip htrip
              · rcases List.mem_cons.mp htrip with rfl | htrip2
                · exact extend_token_matches (c :: rtail) k hp
                · exact ih _ _ _ trip htrip2

theorem find_date_tokens_matches (line : Str) :
    ∀ trip ∈ find_date_tokens line, matchesDatePatternAmended trip.2.2 = true :=
  fun trip h => find_go_matches (line.length + 1) 0 none line trip h

theorem push_current_dates (entries : List CalendarEntry) (cur : Option CalendarEntry)
    (hE : ∀ en ∈ entries, matchesDatePatternAmended en.date = true)
    (hC : ∀ en, cur = some en → matchesDatePatternAmended en.date = true) :
    ∀ en ∈ push_current entries cur, matchesDatePatternAmended en.date = true := by
  intro en hen
  unfold push_current at hen
  rcases cur with _ | entry
  · exact hE en hen
  · dsimp only at hen
    split at hen
    · exact hE en hen
    · rcases List.mem_append.mp hen with hm | hm
      · exact hE en hm
      · rw [List.mem_singleton] at hm
        subst hm
        exact hC entry rfl

theorem append_event_dates (cur : Option CalendarEntry) (text : Str)
    (hC : ∀ en, cur = some en → matchesDatePatternAmended en.date = true) :
    ∀ en, append_event cur text = some en → matchesDatePatternAmended en.date = true := by
  intro en hen
  unfold append_event at hen
  rcases cur with _ | entry
  · cases hen
  · dsimp only at hen
    injection hen with hen
    subst hen
    exact hC entry rfl

theorem token_loop_dates (line : Str) :
    ∀ (tokens : List (Nat × Nat × Str)) (st : List CalendarEntry × Option CalendarEntry),
      (∀ trip ∈ tokens, matchesDatePatternAmended trip.2.2 = true) →
      (∀ en ∈ st.1, matchesDatePatternAmended en.date = true) →
      (∀ en, st.2 = some en → matchesDatePatternAmended en.date = true) →
      (∀ en ∈ (token_loop line tokens st).1, matchesDatePatternAmended en.date = true) ∧
      (∀ en, (token_loop line tokens st).2 = some en →
        matchesDatePatternAmended en.date = true) := by
  intro tokens
  induction tokens with
  | nil =>
      intro st _ hE hC
      exact ⟨hE, hC⟩
  | cons trip rest ih =>
      intro st htoks hE hC
      rcases trip with ⟨a, e, d⟩
      unfold token_loop
      apply ih
      · intro t ht
        exact htoks t (by simp [ht])
      · exact push_current_dates st.1 st.2 hE hC
      · intro en hen
        injection hen with hen
        subst hen
        exact htoks ⟨a, e, d⟩ (by simp)

theorem process_line_dates (st : List CalendarEntry × Option CalendarEntry)
    (raw_line : Str)
    (hE : ∀ en ∈ st.1, matchesDatePatternAmended en.date = true)
    (hC : ∀ en, st.2 = some en → matchesDatePatternAmended en.date = true) :
    (∀ en ∈ (process_line st raw_line).1, matchesDatePatternAmended en.date = true) ∧
    (∀ en, (process_line st raw_line).2 = some en →
      matchesDatePatternAmended en.date = true) := by
  unfold process_line
  by_cases h0 : rust_trim raw_line = []
  · rw [if_pos h0]
    exact ⟨hE, hC⟩
  · rw [if_neg h0]
    dsimp only
    by_cases h1 : find_date_tokens (rust_trim raw_line) = []
    · rw [if_pos h1]
      by_cases h2 : (looks_calendar_note (rust_trim raw_line) ||
          is_noise_token (rust_trim raw_line)) = true
      · rw [if_pos h2]
        exact ⟨hE, hC⟩
      · rw [if_neg h2]
        exact ⟨hE, append_event_dates st.2 _ hC⟩
    · rw [if_neg h1]
      have htoks := find_date_tokens_matches (rust_trim raw_line)
      rcases hhd : (find_date_tokens (rust_trim raw_line)).head? with _ | trip
      · exact token_loop_dates _ _ st htoks hE hC
      · rcases trip with ⟨fs, fe, fd⟩
        dsimp only
        by_cases h3 : (rust_trim ((rust_trim raw_line).take fs) ≠ [] ∧
            !is_noise_token (rust_trim ((rust_trim raw_line).take fs)) ∧
            !looks_calendar_note (rust_trim ((rust_trim raw_line).take fs)))
        · rw [if_pos h3]
          exact token_loop_dates _ _ _ htoks hE (append_event_dates st.2 _ hC)
        · rw [if_neg h3]
          exact token_loop_dates _ _ st htoks hE hC

/-- Claim C2 (amended): every date emitted by the calendar text path matches
the pattern digits slash digits, an optional 起 after either month-day group,
and an optional tilde range, that is M/D 起? (~ M/D 起?)? after
normalization. -/
theorem C2_date_pattern_amended (text : Str) :
    ∀ r ∈ (clean_calendar_from_text text).rows,
      matchesDatePatternAmended (r.getD 2 []) = true := by
  intro r hr
  have hfold := foldl_preserve process_line
    (fun (st : List CalendarEntry × Option CalendarEntry) =>
      (∀ en ∈ st.1, matchesDatePatternAmended en.date = true) ∧
      (∀ en, st.2 = some en → matchesDatePatternAmended en.date = true))
    (rust_lines text)
    (fun st l _ hst => process_line_dates st l hst.1 hst.2)
    ([], none) ⟨(by intro en hen; cases hen), (by intro en hen; cases hen)⟩
  have hentries := push_current_dates _ _ hfold.1 hfold.2
  have hsh := dedup_go_shape (fun d => matchesDatePatternAmended d = true)
    (push_current ((rust_lines text).foldl process_line ([], none)).1
      ((rust_lines text).foldl process_line ([], none)).2)
    ([], []) hentries (by intro r2 hr2; cases hr2) r hr
  obtain ⟨d, e, rfl, hd⟩ := hsh
  exact hd

/-- Claim C2 as stated is false on the code: a range whose first month-day
carries 起 is accepted by the scanner, and the emitted date 9/15起~9/20 does
not match the claimed pattern. -/
theorem C2_date_pattern_counterexample :
    (clean_calendar_from_text ("9/15起~9/20 開學".toList)).rows =
      [[("1".toList), ("1".toList), ("9/15起~9/20".toList), ("開學".toList)]] ∧
    matchesDatePattern ("9/15起~9/20".toList) = false ∧
    matchesDatePatternAmended ("9/15起~9/20".toList) = true := by
  refine ⟨by decide, by decide, by decide⟩

theorem C2_date_pattern_amended_witness :
    matchesDatePatternAmended
      (([[("1".toList), ("1".toList), ("9/23".toList), ("敬師餐會".toList)]].getD 0 []).getD 2 [])
      = true :=
  C2_date_pattern_amended ("9/23 敬師餐會".toList)
    [("1".toList), ("1".toList), ("9/23".toList), ("敬師餐會".toList)] (by decide)
